import Mathlib

/-!
# VolleyballSorter: team distribution, team-count policy and roster merge

A shallow embedding of `main.go`.  Go slices are lists, the `map[string]Person` is an
association list with unique keys, and the run-time faults (an out-of-range index, a remainder
by zero, a loop that outlives its fuel) are explicit `Except` results.
-/

namespace VolleyballSorter

/-! ## Data model -/

/-- A roster member (`type Person struct`). -/
structure Person where
  FirstName : String
  Surname : String
  Committee : Bool
  Grade : String
deriving DecidableEq, Repr

/-- Team capacity (`const membersPerTeam = 5`). -/
def membersPerTeam : Nat := 5

/-- A team is the slice of its members, in the order they were appended. -/
abbrev Team := List Person

/-- Run-time faults of the distributor. `indexOutOfRange` is Go's panic on `teams[teamIndex]`
(and on a row index in the merge); `divideByZero` is Go's panic on `% maxTeams` with
`maxTeams = 0`; `fuelExhausted` marks a `for len(participants) > 0` loop of the model that was
cut short. -/
inductive Fault where
  | indexOutOfRange
  | divideByZero
  | fuelExhausted
deriving DecidableEq, Repr

/-! ## Slice helpers -/

/-- Index of the first element satisfying `pred`: the `for j, participant := range participants`
scan that stops at the first hit. -/
def firstIndex (pred : Person → Bool) : List Person → Option Nat
  | [] => none
  | p :: ps => if pred p then some 0 else (firstIndex pred ps).map (· + 1)

/-- The slice `append(participants[:j], participants[j+1:]...)`. -/
def removeAt (ps : List Person) (j : Nat) : List Person :=
  ps.take j ++ ps.drop (j + 1)

/-- The inner scan of phases 1 and 2: find the first participant satisfying `pred`, hand it out
and remove it from the roster. `none` when the scan finds nobody. -/
def pickFirst (pred : Person → Bool) (ps : List Person) : Option (Person × List Person) :=
  match firstIndex pred ps with
  | none => none
  | some j =>
    match ps[j]? with
    | none => none
    | some p => some (p, removeAt ps j)

/-- The assignment `teams[i] = append(teams[i], p)`; an index past the end changes nothing
(callers check the bound first). -/
def appendAt : List Team → Nat → Person → List Team
  | [], _, _ => []
  | t :: ts, 0, p => (t ++ [p]) :: ts
  | t :: ts, i + 1, p => t :: appendAt ts i p

/-! ## Phase 1: committee seeding -/

/-- The loop `for i := 0; i < maxTeams; i++` of phase 1, as a left-to-right pass over the teams
(iteration `i` reads and writes `teams[i]` only): each team in turn receives the first remaining
committee member, if there is one. Returns the teams and the remaining roster. -/
def seedCommittee : List Team → List Person → List Team × List Person
  | [], ps => ([], ps)
  | t :: ts, ps =>
    match pickFirst (fun p => p.Committee) ps with
    | some (p, ps') =>
      let r := seedCommittee ts ps'
      ((t ++ [p]) :: r.1, r.2)
    | none =>
      let r := seedCommittee ts ps
      (t :: r.1, r.2)

/-! ## Phase 2: grade-balanced fill -/

/-- One pass `for i, team := range teams` of phase 2 for one grade. The third component is
`placedInThisRound`. A full team is skipped (`continue`); otherwise the first remaining
participant of the grade is appended; the pass stops (`break`) once the roster is empty. -/
def fillRound (grade : String) : List Team → List Person → Bool → List Team × List Person × Bool
  | [], ps, placed => ([], ps, placed)
  | t :: ts, ps, placed =>
    if t.length ≥ membersPerTeam then
      let r := fillRound grade ts ps placed
      (t :: r.1, r.2.1, r.2.2)
    else
      match pickFirst (fun p => p.Grade == grade) ps with
      | some (p, ps') =>
        if ps'.length = 0 then ((t ++ [p]) :: ts, ps', true)
        else
          let r := fillRound grade ts ps' true
          ((t ++ [p]) :: r.1, r.2.1, r.2.2)
      | none =>
        if ps.length = 0 then (t :: ts, ps, placed)
        else
          let r := fillRound grade ts ps placed
          (t :: r.1, r.2.1, r.2.2)

/-- The loop `for len(participants) > 0 { ... if !placedInThisRound { break } }` for one grade.
Each further iteration needs one unit of fuel. -/
def fillGrade (grade : String) : Nat → List Team → List Person →
    Except Fault (List Team × List Person)
  | fuel, teams, ps =>
    if ps.length > 0 then
      match fuel with
      | 0 => .error .fuelExhausted
      | fuel + 1 =>
        let r := fillRound grade teams ps false
        if r.2.2 then fillGrade grade fuel r.1 r.2.1 else .ok (r.1, r.2.1)
    else .ok (teams, ps)

/-- The grade order of phase 2 (`grades := []string{"a", "b", "c"}`). -/
def grades : List String := ["a", "b", "c"]

/-- The loop `for _, grade := range grades` around `fillGrade`; every inner loop is given the
current roster length as fuel. -/
def fillGrades : List String → List Team → List Person → Except Fault (List Team × List Person)
  | [], teams, ps => .ok (teams, ps)
  | g :: gs, teams, ps =>
    match fillGrade g ps.length teams ps with
    | .error e => .error e
    | .ok r => fillGrades gs r.1 r.2

/-! ## Phase 3: overflow rotation -/

/-- The final loop: the head of the roster goes to `teams[teamIndex]`, then
`teamIndex = (teamIndex + 1) % maxTeams`. Indexing past the end of `teams` panics, and so does
the remainder by a zero `maxTeams`, in this order. -/
def overflow (maxTeams : Nat) : List Team → List Person → Nat → Except Fault (List Team)
  | teams, [], _ => .ok teams
  | teams, p :: rest, teamIndex =>
    if teamIndex < teams.length then
      if maxTeams = 0 then .error .divideByZero
      else overflow maxTeams (appendAt teams teamIndex p) rest ((teamIndex + 1) % maxTeams)
    else .error .indexOutOfRange

/-- The function `distributeParticipants(participants, maxTeams)`: `maxTeams` empty teams, then
committee seeding, the grade fill and the overflow rotation. -/
def distributeParticipants (participants : List Person) (maxTeams : Nat) :
    Except Fault (List Team) :=
  let s1 := seedCommittee (List.replicate maxTeams []) participants
  match fillGrades grades s1.1 s1.2 with
  | .error e => .error e
  | .ok s2 => overflow maxTeams s2.1 s2.2 0

/-! ## Team-count policy -/

/-- The `switch` of `main` that picks `numTeams` from the roster size. -/
def selectTeamCount (n : Nat) : Nat :=
  if n ≥ 30 then 6
  else if n ≥ 24 then 4
  else if n % membersPerTeam ≠ 0 then n / membersPerTeam + 1 else n / membersPerTeam

/-! ## Sort order -/

/-- The comparator `less` handed to `sort.Slice` in `main`, on the two participants compared:
equal grades are decided by the committee flag, different grades by the string order (Go
compares the bytes, here the characters are compared; both are lexicographic linear orders and
agree on UTF-8 text). -/
def less (p q : Person) : Bool :=
  if p.Grade == q.Grade then p.Committee && !q.Committee
  else decide (p.Grade < q.Grade)

/-! ## Roster merge -/

/-- The map `gradeMap` of `main` (`map[string]Person`), as an association list; the operations
below keep every key at most once. -/
abbrev GradeMap := List (String × Person)

/-- The lookup `person, exists := gradeMap[k]`. -/
def mapGet : GradeMap → String → Option Person
  | [], _ => none
  | (k', v) :: rest, k => if k' = k then some v else mapGet rest k

/-- The assignment `gradeMap[k] = v`: the entry of `k` is overwritten, or added when absent. -/
def mapSet : GradeMap → String → Person → GradeMap
  | [], k, v => [(k, v)]
  | (k', v') :: rest, k, v => if k' = k then (k, v) :: rest else (k', v') :: mapSet rest k v

/-- The keys of the map. -/
def mapKeys (m : GradeMap) : List String := m.map Prod.fst

/-- The key `first + " " + surname`. -/
def fullName (first surname : String) : String := first ++ " " ++ surname

/-- Body of the first loop of `main`: a registrant row `p` is entered under `p[3] + " " + p[4]`
with the defaults. A row with fewer than five columns is Go's index panic. -/
def addRegistrant (m : GradeMap) (p : List String) : Except Fault GradeMap :=
  match p[3]?, p[4]? with
  | some first, some surname =>
    .ok (mapSet m (fullName first surname) ⟨first, surname, false, "c"⟩)
  | _, _ => .error .indexOutOfRange

/-- Body of the second loop of `main`: a grading row overwrites committee flag and grade of the
entry with its key, if there is one. `toLower` stands for `strings.ToLower`. Columns 2 and 3
are read only when the entry exists. -/
def applyGrading (toLower : String → String) (m : GradeMap) (gradeInfo : List String) :
    Except Fault GradeMap :=
  match gradeInfo[0]?, gradeInfo[1]? with
  | some first, some surname =>
    match mapGet m (fullName first surname) with
    | some person =>
      match gradeInfo[2]?, gradeInfo[3]? with
      | some committee, some grade =>
        .ok (mapSet m (fullName first surname)
          { person with Committee := toLower committee == "true", Grade := toLower grade })
      | _, _ => .error .indexOutOfRange
    | none => .ok m
  | _, _ => .error .indexOutOfRange

/-- Body of the third loop of `main`: a registrant without an entry gets the default one. -/
def ensureRegistrant (m : GradeMap) (p : List String) : Except Fault GradeMap :=
  match p[3]?, p[4]? with
  | some first, some surname =>
    match mapGet m (fullName first surname) with
    | some _ => .ok m
    | none => .ok (mapSet m (fullName first surname) ⟨first, surname, false, "c"⟩)
  | _, _ => .error .indexOutOfRange

/-- A loop `for _, row := range rows` whose body updates the map or panics. -/
def forRows (body : GradeMap → List String → Except Fault GradeMap) :
    GradeMap → List (List String) → Except Fault GradeMap
  | m, [] => .ok m
  | m, row :: rows =>
    match body m row with
    | .ok m' => forRows body m' rows
    | .error e => .error e

/-- The roster merge of `main`: `registrants` and `gradings` are the records of the two files
after their header rows. -/
def mergeRoster (toLower : String → String) (registrants gradings : List (List String)) :
    Except Fault GradeMap :=
  match forRows addRegistrant [] registrants with
  | .error e => .error e
  | .ok m1 =>
    match forRows (applyGrading toLower) m1 gradings with
    | .error e => .error e
    | .ok m2 => forRows ensureRegistrant m2 registrants

/-- Full name of a registrant row (columns 3 and 4). -/
def registrantKey (p : List String) : String := fullName (p.getD 3 "") (p.getD 4 "")

/-- Full name of a grading row (columns 0 and 1). -/
def gradingKey (r : List String) : String := fullName (r.getD 0 "") (r.getD 1 "")

/-- What the spec says the merged entry of key `k` carries: committee flag and grade of the last
grading row with that key, lower-cased, or the defaults when there is no such row. -/
def expectedStatus (toLower : String → String) (gradings : List (List String)) (k : String) :
    Bool × String :=
  match (gradings.filter (fun r => gradingKey r == k)).getLast? with
  | some row => (toLower (row.getD 2 "") == "true", toLower (row.getD 3 ""))
  | none => (false, "c")

/-- Lower-casing of ASCII letters, the action of `strings.ToLower` on ASCII text; it instantiates
the `toLower` parameter in concrete examples. -/
def asciiLower (s : String) : String := String.mk (s.data.map Char.toLower)

/-! ## Specification vocabulary -/

/-- The relation between the team list before and after a phase: the same number of teams, and
each team keeps its members, in order, and gains (at its end) only members satisfying `Q`. -/
def Grows (Q : Person → Prop) (teams teams' : List Team) : Prop :=
  List.Forall₂ (fun t t' => ∃ ex, t' = t ++ ex ∧ ∀ x ∈ ex, Q x) teams teams'

/-- Number of members of grade `g` in a team. -/
def gradeCount (g : String) (t : Team) : Nat :=
  t.countP (fun p => p.Grade == g)

/-- Number of committee members in a roster or team. -/
def committeeCount (ps : List Person) : Nat :=
  ps.countP (fun p => p.Committee)

/-- The grade-spread condition on a state of the distributor: either no team holds more than one
member of grade `g` and nobody of that grade is left in the roster, or every team below the
capacity already holds a member of grade `g`. -/
def Spread (g : String) (teams : List Team) (ps : List Person) : Prop :=
  ((∀ t ∈ teams, gradeCount g t ≤ 1) ∧ ∀ x ∈ ps, x.Grade ≠ g) ∨
    (∀ t ∈ teams, t.length < membersPerTeam → 1 ≤ gradeCount g t)

/-- The supply condition for grade `g` on a state of the distributor: every team that holds no
member of grade `g` has an index smaller than the number of grade-`g` participants in the roster,
so that a pass for grade `g`, which hands out one participant per team in index order, gets as
far as that team. -/
def Reach (g : String) (teams : List Team) (ps : List Person) : Prop :=
  ∀ i, i < teams.length → gradeCount g (teams.getD i []) = 0 → i < gradeCount g ps

/-! ## Sample rosters -/

/-- Nine non-committee participants of grade "a" followed by one of grade "d". -/
def rosterNineAOneD : List Person :=
  [⟨"Ann", "One", false, "a"⟩, ⟨"Ann", "Two", false, "a"⟩, ⟨"Ann", "Three", false, "a"⟩,
   ⟨"Ann", "Four", false, "a"⟩, ⟨"Ann", "Five", false, "a"⟩, ⟨"Ann", "Six", false, "a"⟩,
   ⟨"Ann", "Seven", false, "a"⟩, ⟨"Ann", "Eight", false, "a"⟩, ⟨"Ann", "Nine", false, "a"⟩,
   ⟨"Dan", "Ten", false, "d"⟩]

/-- Two committee members and two further participants, all of grade "a". -/
def rosterTwoSeedsTwoA : List Person :=
  [⟨"Cara", "One", true, "a"⟩, ⟨"Cara", "Two", true, "a"⟩,
   ⟨"Ann", "One", false, "a"⟩, ⟨"Ann", "Two", false, "a"⟩]

/-- One committee member of grade "b" and three participants of grade "a". -/
def rosterOneSeedThreeA : List Person :=
  [⟨"Ann", "One", false, "a"⟩, ⟨"Ann", "Two", false, "a"⟩, ⟨"Ann", "Three", false, "a"⟩,
   ⟨"Cara", "One", true, "b"⟩]

/-- Twenty-four participants sorted as `main` sorts them: eight each of grade "a", "b" and "c",
the first two of every grade being committee members. -/
def rosterTwentyFour : List Person :=
  [⟨"Ann", "One", true, "a"⟩, ⟨"Ann", "Two", true, "a"⟩, ⟨"Ann", "Three", false, "a"⟩,
   ⟨"Ann", "Four", false, "a"⟩, ⟨"Ann", "Five", false, "a"⟩, ⟨"Ann", "Six", false, "a"⟩,
   ⟨"Ann", "Seven", false, "a"⟩, ⟨"Ann", "Eight", false, "a"⟩,
   ⟨"Bea", "One", true, "b"⟩, ⟨"Bea", "Two", true, "b"⟩, ⟨"Bea", "Three", false, "b"⟩,
   ⟨"Bea", "Four", false, "b"⟩, ⟨"Bea", "Five", false, "b"⟩, ⟨"Bea", "Six", false, "b"⟩,
   ⟨"Bea", "Seven", false, "b"⟩, ⟨"Bea", "Eight", false, "b"⟩,
   ⟨"Cy", "One", true, "c"⟩, ⟨"Cy", "Two", true, "c"⟩, ⟨"Cy", "Three", false, "c"⟩,
   ⟨"Cy", "Four", false, "c"⟩, ⟨"Cy", "Five", false, "c"⟩, ⟨"Cy", "Six", false, "c"⟩,
   ⟨"Cy", "Seven", false, "c"⟩, ⟨"Cy", "Eight", false, "c"⟩]

/-- Seven participants of grade "b", none of them on the committee. -/
def rosterSevenB : List Person :=
  [⟨"Bea", "One", false, "b"⟩, ⟨"Bea", "Two", false, "b"⟩, ⟨"Bea", "Three", false, "b"⟩,
   ⟨"Bea", "Four", false, "b"⟩, ⟨"Bea", "Five", false, "b"⟩, ⟨"Bea", "Six", false, "b"⟩,
   ⟨"Bea", "Seven", false, "b"⟩]

/-! ## The roster scan -/

theorem pickFirst_nil (pred : Person → Bool) : pickFirst pred [] = none := rfl

theorem pickFirst_cons (pred : Person → Bool) (q : Person) (ps : List Person) :
    pickFirst pred (q :: ps) =
      if pred q then some (q, ps) else (pickFirst pred ps).map (fun r => (r.1, q :: r.2)) := by
  unfold pickFirst
  by_cases hq : pred q = true
  · simp [firstIndex, hq, removeAt]
  · simp only [firstIndex, hq]
    cases h : firstIndex pred ps with
    | none => simp
    | some j =>
      cases hj : ps[j]? with
      | none => simp [hj]
      | some p => simp [hj, removeAt]

/-- A successful scan splits the roster around the first match. -/
theorem pickFirst_some {pred : Person → Bool} {ps : List Person} {p : Person}
    {rest : List Person} (h : pickFirst pred ps = some (p, rest)) :
    ∃ l1 l2, ps = l1 ++ p :: l2 ∧ rest = l1 ++ l2 ∧ pred p = true ∧ ∀ x ∈ l1, pred x = false := by
  induction ps generalizing p rest with
  | nil => simp [pickFirst_nil] at h
  | cons q ps ih =>
    rw [pickFirst_cons] at h
    by_cases hq : pred q = true
    · simp only [hq, if_true, Option.some.injEq, Prod.mk.injEq] at h
      obtain ⟨rfl, rfl⟩ := h
      exact ⟨[], ps, rfl, rfl, hq, by simp⟩
    · simp only [hq] at h
      cases hr : pickFirst pred ps with
      | none => simp [hr] at h
      | some r =>
        obtain ⟨p', rest'⟩ := r
        simp only [hr, Option.map_some', Bool.false_eq_true, if_false, Option.some.injEq,
          Prod.mk.injEq] at h
        obtain ⟨rfl, rfl⟩ := h
        obtain ⟨l1, l2, h1, h2, h3, h4⟩ := ih hr
        refine ⟨q :: l1, l2, by simp [h1], by simp [h2], h3, ?_⟩
        intro x hx
        rcases List.mem_cons.mp hx with rfl | hx
        · simpa using hq
        · exact h4 x hx

/-- A failed scan means nobody in the roster matches. -/
theorem pickFirst_none {pred : Person → Bool} {ps : List Person}
    (h : pickFirst pred ps = none) : ∀ x ∈ ps, pred x = false := by
  induction ps with
  | nil => simp
  | cons q ps ih =>
    rw [pickFirst_cons] at h
    by_cases hq : pred q = true
    · simp [hq] at h
    · simp only [hq, Bool.false_eq_true, if_false, Option.map_eq_none'] at h
      intro x hx
      rcases List.mem_cons.mp hx with rfl | hx
      · simpa using hq
      · exact ih h x hx

theorem pickFirst_none_of {pred : Person → Bool} {ps : List Person}
    (h : ∀ x ∈ ps, pred x = false) : pickFirst pred ps = none := by
  cases hr : pickFirst pred ps with
  | none => rfl
  | some r =>
    obtain ⟨l1, l2, h1, _, h3, _⟩ := @pickFirst_some pred ps r.1 r.2 hr
    have := h r.1 (by simp [h1])
    simp [h3] at this

theorem pickFirst_perm {pred : Person → Bool} {ps : List Person} {p : Person}
    {rest : List Person} (h : pickFirst pred ps = some (p, rest)) : (p :: rest).Perm ps := by
  obtain ⟨l1, l2, rfl, rfl, _, _⟩ := pickFirst_some h
  exact List.perm_middle.symm

theorem pickFirst_length {pred : Person → Bool} {ps : List Person} {p : Person}
    {rest : List Person} (h : pickFirst pred ps = some (p, rest)) :
    rest.length + 1 = ps.length := by
  simpa using (pickFirst_perm h).length_eq

theorem pickFirst_sublist {pred : Person → Bool} {ps : List Person} {p : Person}
    {rest : List Person} (h : pickFirst pred ps = some (p, rest)) : rest.Sublist ps := by
  obtain ⟨l1, l2, rfl, rfl, _, _⟩ := pickFirst_some h
  exact (List.Sublist.refl l1).append (List.sublist_cons_self p l2)

theorem pickFirst_mem {pred : Person → Bool} {ps : List Person} {p : Person}
    {rest : List Person} (h : pickFirst pred ps = some (p, rest)) : p ∈ ps := by
  obtain ⟨l1, l2, rfl, _, _, _⟩ := pickFirst_some h
  simp

theorem pickFirst_pred {pred : Person → Bool} {ps : List Person} {p : Person}
    {rest : List Person} (h : pickFirst pred ps = some (p, rest)) : pred p = true := by
  obtain ⟨_, _, _, _, hp, _⟩ := pickFirst_some h
  exact hp

/-! ## Growth of teams -/

theorem Grows.refl (Q : Person → Prop) (teams : List Team) : Grows Q teams teams := by
  induction teams with
  | nil => exact List.Forall₂.nil
  | cons t ts ih => exact List.Forall₂.cons ⟨[], by simp, by simp⟩ ih

theorem Grows.mono {Q Q' : Person → Prop} {teams teams' : List Team}
    (hQ : ∀ x, Q x → Q' x) (h : Grows Q teams teams') : Grows Q' teams teams' := by
  induction h with
  | nil => exact List.Forall₂.nil
  | cons hab _ ih =>
    obtain ⟨ex, he, hx⟩ := hab
    exact List.Forall₂.cons ⟨ex, he, fun x hm => hQ x (hx x hm)⟩ ih

theorem Grows.trans {Q : Person → Prop} {t1 t2 t3 : List Team}
    (h12 : Grows Q t1 t2) (h23 : Grows Q t2 t3) : Grows Q t1 t3 := by
  induction h12 generalizing t3 with
  | nil => cases h23; exact List.Forall₂.nil
  | cons hab _ ih =>
    cases h23 with
    | cons hbc hrest =>
      obtain ⟨e1, rfl, hx1⟩ := hab
      obtain ⟨e2, rfl, hx2⟩ := hbc
      refine List.Forall₂.cons ⟨e1 ++ e2, by simp, ?_⟩ (ih hrest)
      intro x hm
      rcases List.mem_append.mp hm with hm | hm
      · exact hx1 x hm
      · exact hx2 x hm

theorem Grows.length_eq {Q : Person → Prop} {teams teams' : List Team}
    (h : Grows Q teams teams') : teams'.length = teams.length :=
  (List.Forall₂.length_eq h).symm

theorem Grows.cons_step {Q : Person → Prop} {t : Team} {ts ts' : List Team} (ex : List Person)
    (hx : ∀ x ∈ ex, Q x) (h : Grows Q ts ts') : Grows Q (t :: ts) ((t ++ ex) :: ts') :=
  List.Forall₂.cons ⟨ex, rfl, hx⟩ h

/-- Pointwise reading of `Grows`: every team of the result extends some team of the start. -/
theorem Grows.mem_right {Q : Person → Prop} {teams teams' : List Team}
    (h : Grows Q teams teams') {t' : Team} (ht : t' ∈ teams') :
    ∃ t ∈ teams, ∃ ex, t' = t ++ ex ∧ ∀ x ∈ ex, Q x := by
  induction h with
  | nil => simp at ht
  | cons hab _ ih =>
    rcases List.mem_cons.mp ht with rfl | ht
    · obtain ⟨ex, he, hx⟩ := hab
      exact ⟨_, List.mem_cons_self _ _, ex, he, hx⟩
    · obtain ⟨t, hm, r⟩ := ih ht
      exact ⟨t, List.mem_cons_of_mem _ hm, r⟩

/-- Indexed reading of `Grows`. -/
theorem Grows.getElem {Q : Person → Prop} {teams teams' : List Team}
    (h : Grows Q teams teams') (i : Nat) (hi : i < teams.length) (hi' : i < teams'.length) :
    ∃ ex, teams'[i] = teams[i] ++ ex ∧ ∀ x ∈ ex, Q x := by
  induction h generalizing i with
  | nil => simp at hi
  | cons hab _ ih =>
    cases i with
    | zero => simpa using hab
    | succ i => simpa using ih i (by simpa using hi) (by simpa using hi')

/-! ## Case analysis of the passes -/

/-- Induction over a committee-seeding pass, one case per branch of the loop body. -/
theorem seedCommittee_cases
    (motive : List Team → List Person → List Team × List Person → Prop)
    (done : ∀ ps, motive [] ps ([], ps))
    (hit : ∀ t ts ps p ps' r, pickFirst (fun p => p.Committee) ps = some (p, ps') →
      motive ts ps' r → motive (t :: ts) ps ((t ++ [p]) :: r.1, r.2))
    (miss : ∀ t ts ps r, pickFirst (fun p => p.Committee) ps = none →
      motive ts ps r → motive (t :: ts) ps (t :: r.1, r.2)) :
    ∀ teams ps, motive teams ps (seedCommittee teams ps) := by
  intro teams
  induction teams with
  | nil => intro ps; exact done ps
  | cons t ts ih =>
    intro ps
    cases h : pickFirst (fun p => p.Committee) ps with
    | none =>
      have := miss t ts ps _ h (ih ps)
      simpa [seedCommittee, h] using this
    | some r =>
      obtain ⟨p, ps'⟩ := r
      have := hit t ts ps p ps' _ h (ih ps')
      simpa [seedCommittee, h] using this

/-- Induction over one grade pass, one case per branch of the loop body: the team is full; a
participant is placed and the roster is now empty; a participant is placed and the pass goes on;
nobody is found and the roster is empty; nobody is found and the pass goes on. -/
theorem fillRound_cases (g : String)
    (motive : List Team → List Person → Bool → List Team × List Person × Bool → Prop)
    (done : ∀ ps pl, motive [] ps pl ([], ps, pl))
    (full : ∀ t ts ps pl r, r = fillRound g ts ps pl → membersPerTeam ≤ t.length →
      motive ts ps pl r →
      motive (t :: ts) ps pl (t :: r.1, r.2.1, r.2.2))
    (hitLast : ∀ t ts ps pl p, t.length < membersPerTeam →
      pickFirst (fun p => p.Grade == g) ps = some (p, []) →
      motive (t :: ts) ps pl ((t ++ [p]) :: ts, [], true))
    (hit : ∀ t ts ps pl p ps' r, r = fillRound g ts ps' true → t.length < membersPerTeam →
      pickFirst (fun p => p.Grade == g) ps = some (p, ps') → ps' ≠ [] →
      motive ts ps' true r → motive (t :: ts) ps pl ((t ++ [p]) :: r.1, r.2.1, r.2.2))
    (missLast : ∀ t ts pl, t.length < membersPerTeam → motive (t :: ts) [] pl (t :: ts, [], pl))
    (miss : ∀ t ts ps pl r, r = fillRound g ts ps pl → t.length < membersPerTeam →
      pickFirst (fun p => p.Grade == g) ps = none → ps ≠ [] →
      motive ts ps pl r → motive (t :: ts) ps pl (t :: r.1, r.2.1, r.2.2)) :
    ∀ teams ps pl, motive teams ps pl (fillRound g teams ps pl) := by
  intro teams
  induction teams with
  | nil => intro ps pl; exact done ps pl
  | cons t ts ih =>
    intro ps pl
    by_cases hf : membersPerTeam ≤ t.length
    · have := full t ts ps pl _ rfl hf (ih ps pl)
      simpa [fillRound, hf] using this
    · have hlt : t.length < membersPerTeam := Nat.lt_of_not_le hf
      cases h : pickFirst (fun p => p.Grade == g) ps with
      | none =>
        by_cases he : ps = []
        · subst he
          have := missLast t ts pl hlt
          simpa [fillRound, hf, h] using this
        · have := miss t ts ps pl _ rfl hlt h he (ih ps pl)
          simpa [fillRound, hf, h, he] using this
      | some r =>
        obtain ⟨p, ps'⟩ := r
        by_cases he : ps' = []
        · subst he
          have := hitLast t ts ps pl p hlt h
          simpa [fillRound, hf, h] using this
        · have := hit t ts ps pl p ps' _ rfl hlt h he (ih ps' true)
          simpa [fillRound, hf, h, he] using this

/-! ## Phase 1 facts -/

theorem seedCommittee_grows (teams : List Team) (ps : List Person) :
    Grows (fun x => x ∈ ps ∧ x.Committee = true) teams (seedCommittee teams ps).1 := by
  refine seedCommittee_cases
    (fun teams ps r => Grows (fun x => x ∈ ps ∧ x.Committee = true) teams r.1) ?_ ?_ ?_ teams ps
  · intro ps; exact List.Forall₂.nil
  · intro t ts ps p ps' r h ih
    refine Grows.cons_step [p] ?_ (ih.mono ?_)
    · intro x hx
      obtain rfl := List.mem_singleton.mp hx
      exact ⟨pickFirst_mem h, pickFirst_pred h⟩
    · intro x hx; exact ⟨(pickFirst_sublist h).subset hx.1, hx.2⟩
  · intro t ts ps r _ ih
    simpa using Grows.cons_step (t := t) [] (by simp) ih

theorem seedCommittee_perm (teams : List Team) (ps : List Person) :
    ((seedCommittee teams ps).1.flatten ++ (seedCommittee teams ps).2).Perm
      (teams.flatten ++ ps) := by
  refine seedCommittee_cases
    (fun teams ps r => (r.1.flatten ++ r.2).Perm (teams.flatten ++ ps)) ?_ ?_ ?_ teams ps
  · intro ps; simp
  · intro t ts ps p ps' r h ih
    have hp := pickFirst_perm h
    simp only [List.flatten_cons, List.append_assoc]
    refine List.Perm.append_left t ?_
    exact ((List.Perm.cons p ih).trans List.perm_middle.symm).trans
      (List.Perm.append_left _ hp)
  · intro t ts ps r _ ih
    simp only [List.flatten_cons, List.append_assoc]
    exact List.Perm.append_left t ih

theorem seedCommittee_sublist (teams : List Team) (ps : List Person) :
    (seedCommittee teams ps).2.Sublist ps := by
  refine seedCommittee_cases (fun _ ps r => r.2.Sublist ps) ?_ ?_ ?_ teams ps
  · intro ps; exact List.Sublist.refl ps
  · intro t ts ps p ps' r h ih; exact ih.trans (pickFirst_sublist h)
  · intro t ts ps r _ ih; exact ih

/-! ## Phase 2 facts: one pass -/

theorem fillRound_grows (g : String) (teams : List Team) (ps : List Person) (pl : Bool) :
    Grows (fun x => x ∈ ps ∧ x.Grade = g) teams (fillRound g teams ps pl).1 := by
  refine fillRound_cases g
    (fun teams ps _ r => Grows (fun x => x ∈ ps ∧ x.Grade = g) teams r.1)
    ?_ ?_ ?_ ?_ ?_ ?_ teams ps pl
  · intro ps _; exact List.Forall₂.nil
  · intro t ts ps pl r _ _ ih
    simpa using Grows.cons_step (t := t) [] (by simp) ih
  · intro t ts ps pl p _ h
    refine Grows.cons_step [p] ?_ (Grows.refl _ ts)
    intro x hx
    obtain rfl := List.mem_singleton.mp hx
    exact ⟨pickFirst_mem h, by simpa using pickFirst_pred h⟩
  · intro t ts ps pl p ps' r _ _ h _ ih
    refine Grows.cons_step [p] ?_ (ih.mono ?_)
    · intro x hx
      obtain rfl := List.mem_singleton.mp hx
      exact ⟨pickFirst_mem h, by simpa using pickFirst_pred h⟩
    · intro x hx; exact ⟨(pickFirst_sublist h).subset hx.1, hx.2⟩
  · intro t ts pl _; exact Grows.refl _ _
  · intro t ts ps pl r _ _ _ _ ih
    simpa using Grows.cons_step (t := t) [] (by simp) ih

theorem fillRound_perm (g : String) (teams : List Team) (ps : List Person) (pl : Bool) :
    ((fillRound g teams ps pl).1.flatten ++ (fillRound g teams ps pl).2.1).Perm
      (teams.flatten ++ ps) := by
  refine fillRound_cases g
    (fun teams ps _ r => (r.1.flatten ++ r.2.1).Perm (teams.flatten ++ ps))
    ?_ ?_ ?_ ?_ ?_ ?_ teams ps pl
  · intro ps _; simp
  · intro t ts ps pl r _ _ ih
    simp only [List.flatten_cons, List.append_assoc]
    exact List.Perm.append_left t ih
  · intro t ts ps pl p _ h
    have hp := pickFirst_perm h
    simp only [List.flatten_cons, List.append_assoc, List.append_nil]
    refine List.Perm.append_left t ?_
    have hm : (p :: (ts.flatten ++ [])).Perm (ts.flatten ++ ps) :=
      List.perm_middle.symm.trans (List.Perm.append_left _ hp)
    simpa using hm
  · intro t ts ps pl p ps' r _ _ h _ ih
    have hp := pickFirst_perm h
    simp only [List.flatten_cons, List.append_assoc]
    refine List.Perm.append_left t ?_
    exact ((List.Perm.cons p ih).trans List.perm_middle.symm).trans
      (List.Perm.append_left _ hp)
  · intro t ts pl _; simp
  · intro t ts ps pl r _ _ _ _ ih
    simp only [List.flatten_cons, List.append_assoc]
    exact List.Perm.append_left t ih

theorem fillRound_sublist (g : String) (teams : List Team) (ps : List Person) (pl : Bool) :
    (fillRound g teams ps pl).2.1.Sublist ps := by
  refine fillRound_cases g (fun _ ps _ r => r.2.1.Sublist ps) ?_ ?_ ?_ ?_ ?_ ?_ teams ps pl
  · intro ps _; exact List.Sublist.refl ps
  · intro t ts ps pl r _ _ ih; exact ih
  · intro t ts ps pl p _ h; exact List.nil_sublist _
  · intro t ts ps pl p ps' r _ _ h _ ih; exact ih.trans (pickFirst_sublist h)
  · intro t ts pl _; exact List.Sublist.refl _
  · intro t ts ps pl r _ _ _ _ ih; exact ih

/-- A pass never takes a team past the capacity. -/
theorem fillRound_cap (g : String) (teams : List Team) (ps : List Person) (pl : Bool)
    (hcap : ∀ t ∈ teams, t.length ≤ membersPerTeam) :
    ∀ t ∈ (fillRound g teams ps pl).1, t.length ≤ membersPerTeam := by
  revert hcap
  refine fillRound_cases g
    (fun teams _ _ r => (∀ t ∈ teams, t.length ≤ membersPerTeam) →
      ∀ t ∈ r.1, t.length ≤ membersPerTeam)
    ?_ ?_ ?_ ?_ ?_ ?_ teams ps pl
  · intro ps _ _ t ht; simp at ht
  · intro t ts ps pl r _ _ ih hcap x hx
    rcases List.mem_cons.mp hx with rfl | hx
    · exact hcap _ (List.mem_cons_self _ _)
    · exact ih (fun y hy => hcap y (List.mem_cons_of_mem _ hy)) x hx
  · intro t ts ps pl p hlt _ hcap x hx
    rcases List.mem_cons.mp hx with rfl | hx
    · simp only [List.length_append, List.length_singleton]; omega
    · exact hcap x (List.mem_cons_of_mem _ hx)
  · intro t ts ps pl p ps' r _ hlt _ _ ih hcap x hx
    rcases List.mem_cons.mp hx with rfl | hx
    · simp only [List.length_append, List.length_singleton]; omega
    · exact ih (fun y hy => hcap y (List.mem_cons_of_mem _ hy)) x hx
  · intro t ts pl _ hcap; exact hcap
  · intro t ts ps pl r _ _ _ _ ih hcap x hx
    rcases List.mem_cons.mp hx with rfl | hx
    · exact hcap _ (List.mem_cons_self _ _)
    · exact ih (fun y hy => hcap y (List.mem_cons_of_mem _ hy)) x hx

/-- A pass that reports a placement either was entered with the flag already set or has
shortened the roster. -/
theorem fillRound_progress (g : String) (teams : List Team) (ps : List Person) (pl : Bool)
    (h : (fillRound g teams ps pl).2.2 = true) :
    pl = true ∨ (fillRound g teams ps pl).2.1.length < ps.length := by
  have key : (fillRound g teams ps pl).2.1.length ≤ ps.length ∧
      ((fillRound g teams ps pl).2.2 = true →
        pl = true ∨ (fillRound g teams ps pl).2.1.length < ps.length) := by
    refine fillRound_cases g
      (fun _ ps pl r => r.2.1.length ≤ ps.length ∧
        (r.2.2 = true → pl = true ∨ r.2.1.length < ps.length))
      ?_ ?_ ?_ ?_ ?_ ?_ teams ps pl
    · intro ps pl; exact ⟨Nat.le_refl _, fun h => Or.inl h⟩
    · intro t ts ps pl r _ _ ih; exact ih
    · intro t ts ps pl p _ h
      have := pickFirst_length h
      simp only [List.length_nil] at this ⊢
      exact ⟨by omega, fun _ => Or.inr (by omega)⟩
    · intro t ts ps pl p ps' r _ _ h _ ih
      have h1 := pickFirst_length h
      have h2 := ih.1
      dsimp only at h2 ⊢
      exact ⟨by omega, fun _ => Or.inr (by omega)⟩
    · intro t ts pl _; exact ⟨Nat.le_refl _, fun h => Or.inl h⟩
    · intro t ts ps pl r _ _ _ _ ih; exact ih
  exact key.2 h

/-- A pass that reports no placement has changed nothing, and then either every team is at
capacity or nobody of the grade is left in the roster. -/
theorem fillRound_stuck (g : String) (teams : List Team) (ps : List Person) (pl : Bool)
    (h : (fillRound g teams ps pl).2.2 = false) :
    (fillRound g teams ps pl).1 = teams ∧ (fillRound g teams ps pl).2.1 = ps ∧
      ((∀ t ∈ teams, membersPerTeam ≤ t.length) ∨ ∀ x ∈ ps, x.Grade ≠ g) := by
  have key : (pl = true → (fillRound g teams ps pl).2.2 = true) ∧
      ((fillRound g teams ps pl).2.2 = false →
        (fillRound g teams ps pl).1 = teams ∧ (fillRound g teams ps pl).2.1 = ps ∧
        ((∀ t ∈ teams, membersPerTeam ≤ t.length) ∨ ∀ x ∈ ps, x.Grade ≠ g)) := by
    refine fillRound_cases g
      (fun teams ps pl r => (pl = true → r.2.2 = true) ∧ (r.2.2 = false → r.1 = teams ∧
        r.2.1 = ps ∧ ((∀ t ∈ teams, membersPerTeam ≤ t.length) ∨ ∀ x ∈ ps, x.Grade ≠ g)))
      ?_ ?_ ?_ ?_ ?_ ?_ teams ps pl
    · intro ps pl; exact ⟨fun h => h, fun _ => ⟨rfl, rfl, Or.inl (by simp)⟩⟩
    · intro t ts ps pl r _ hf ih
      refine ⟨ih.1, fun h => ?_⟩
      obtain ⟨h1, h2, h3⟩ := ih.2 h
      refine ⟨by simp [h1], h2, ?_⟩
      rcases h3 with h3 | h3
      · left
        intro x hx
        rcases List.mem_cons.mp hx with rfl | hx
        · exact hf
        · exact h3 x hx
      · exact Or.inr h3
    · intro t ts ps pl p _ _
      exact ⟨fun _ => rfl, fun h => by simp at h⟩
    · intro t ts ps pl p ps' r _ _ hp _ ih
      have ht : r.2.2 = true := ih.1 rfl
      exact ⟨fun _ => ht, fun h => by simp [ht] at h⟩
    · intro t ts pl _; exact ⟨fun h => h, fun _ => ⟨rfl, rfl, Or.inr (by simp)⟩⟩
    · intro t ts ps pl r _ _ hn _ ih
      refine ⟨ih.1, fun h => ?_⟩
      obtain ⟨h1, h2, _⟩ := ih.2 h
      refine ⟨by simp [h1], h2, Or.inr ?_⟩
      intro x hx
      simpa using pickFirst_none hn x hx
  exact key.2 h

/-- With nobody of the grade in the roster a pass changes nothing. -/
theorem fillRound_noop (g : String) (teams : List Team) (ps : List Person) (pl : Bool)
    (hno : ∀ x ∈ ps, x.Grade ≠ g) : fillRound g teams ps pl = (teams, ps, pl) := by
  revert hno
  refine fillRound_cases g
    (fun teams ps pl r => (∀ x ∈ ps, x.Grade ≠ g) → r = (teams, ps, pl))
    ?_ ?_ ?_ ?_ ?_ ?_ teams ps pl
  · intro ps pl _; rfl
  · intro t ts ps pl r _ _ ih hno
    rw [ih hno]
  · intro t ts ps pl p _ h hno
    exact absurd (by simpa using pickFirst_pred h) (hno p (pickFirst_mem h))
  · intro t ts ps pl p ps' r _ _ h _ _ hno
    exact absurd (by simpa using pickFirst_pred h) (hno p (pickFirst_mem h))
  · intro t ts pl _ _; rfl
  · intro t ts ps pl r _ _ _ _ ih hno
    rw [ih hno]

/-! ## Phase 2 facts: the loops -/

/-- Loop rule for the fill of one grade. With fuel at least the roster length the loop ends
normally; an invariant of the single pass holds at the end; and at the end either every team
is at capacity or nobody of the grade is left. -/
theorem fillGrade_rule (g : String) (I : List Team → List Person → Prop)
    (hstep : ∀ teams ps, ps ≠ [] → I teams ps →
      I (fillRound g teams ps false).1 (fillRound g teams ps false).2.1) :
    ∀ (fuel : Nat) (teams : List Team) (ps : List Person), ps.length ≤ fuel → I teams ps →
      ∃ r, fillGrade g fuel teams ps = .ok r ∧ I r.1 r.2 ∧
        ((∀ t ∈ r.1, membersPerTeam ≤ t.length) ∨ ∀ x ∈ r.2, x.Grade ≠ g) := by
  intro fuel
  induction fuel with
  | zero =>
    intro teams ps hf hI
    have hps : ps = [] := List.length_eq_zero.mp (Nat.le_zero.mp hf)
    subst hps
    exact ⟨(teams, []), by simp [fillGrade], hI, Or.inr (by simp)⟩
  | succ fuel ih =>
    intro teams ps hf hI
    by_cases hps : ps = []
    · subst hps
      exact ⟨(teams, []), by simp [fillGrade], hI, Or.inr (by simp)⟩
    · have hpos : ps.length > 0 := List.length_pos.mpr hps
      have hI' := hstep teams ps hps hI
      cases hfl : (fillRound g teams ps false).2.2 with
      | true =>
        have hprog := fillRound_progress g teams ps false hfl
        have hlen : (fillRound g teams ps false).2.1.length ≤ fuel := by
          rcases hprog with h | h
          · simp at h
          · omega
        obtain ⟨r, hr, hIr, hex⟩ := ih _ _ hlen hI'
        refine ⟨r, ?_, hIr, hex⟩
        rw [fillGrade]
        simp only [hpos, if_true, hfl]
        exact hr
      | false =>
        obtain ⟨h1, h2, h3⟩ := fillRound_stuck g teams ps false hfl
        refine ⟨((fillRound g teams ps false).1, (fillRound g teams ps false).2.1), ?_, hI', ?_⟩
        · rw [fillGrade]
          simp [hpos, hfl]
        · simp only [h1, h2]
          exact h3

/-- Loop rule for the whole of phase 2 over a list of grades: the phase ends normally, an
invariant of every single pass holds at the end, and at the end either every team is at capacity
or nobody of any of the grades is left. -/
theorem fillGrades_rule (gs : List String) :
    ∀ (I : List Team → List Person → Prop),
      (∀ g ∈ gs, ∀ teams ps, ps ≠ [] → I teams ps →
        I (fillRound g teams ps false).1 (fillRound g teams ps false).2.1) →
      ∀ (teams : List Team) (ps : List Person), I teams ps →
        ∃ r, fillGrades gs teams ps = .ok r ∧ I r.1 r.2 ∧
          ((∀ t ∈ r.1, membersPerTeam ≤ t.length) ∨ ∀ x ∈ r.2, ∀ g ∈ gs, x.Grade ≠ g) := by
  induction gs with
  | nil =>
    intro I _ teams ps hI
    exact ⟨(teams, ps), rfl, hI, Or.inr (by simp)⟩
  | cons g gs ih =>
    intro I hstep teams ps hI
    obtain ⟨r1, hr1, hI1, hex1⟩ :=
      fillGrade_rule g I (hstep g (List.mem_cons_self _ _)) ps.length teams ps (Nat.le_refl _) hI
    let J : List Team → List Person → Prop := fun ts qs =>
      I ts qs ∧ ((∀ t ∈ ts, membersPerTeam ≤ t.length) ∨ ∀ x ∈ qs, x.Grade ≠ g)
    have hJstep : ∀ g' ∈ gs, ∀ ts qs, qs ≠ [] → J ts qs →
        J (fillRound g' ts qs false).1 (fillRound g' ts qs false).2.1 := by
      intro g' hg' ts qs hne hJ
      refine ⟨hstep g' (List.mem_cons_of_mem _ hg') ts qs hne hJ.1, ?_⟩
      rcases hJ.2 with hfull | hno
      · left
        intro t' ht'
        obtain ⟨t, ht, ex, rfl, _⟩ := (fillRound_grows g' ts qs false).mem_right ht'
        have := hfull t ht
        simp only [List.length_append]
        omega
      · right
        intro x hx
        exact hno x ((fillRound_sublist g' ts qs false).subset hx)
    obtain ⟨r, hr, hJr, hex⟩ := ih J hJstep r1.1 r1.2 ⟨hI1, hex1⟩
    refine ⟨r, ?_, hJr.1, ?_⟩
    · simp only [fillGrades, hr1]
      exact hr
    · rcases hex with hfull | hno
      · exact Or.inl hfull
      · rcases hJr.2 with hfull | hnog
        · exact Or.inl hfull
        · right
          intro x hx g' hg'
          rcases List.mem_cons.mp hg' with rfl | hg'
          · exact hnog x hx
          · exact hno x hx g' hg'

/-! ## Phase 3 facts -/

theorem appendAt_length (teams : List Team) (i : Nat) (p : Person) :
    (appendAt teams i p).length = teams.length := by
  induction teams generalizing i with
  | nil => rfl
  | cons t ts ih =>
    cases i with
    | zero => rfl
    | succ i => simp [appendAt, ih]

theorem appendAt_grows (teams : List Team) (i : Nat) (p : Person) :
    Grows (fun x => x = p) teams (appendAt teams i p) := by
  induction teams generalizing i with
  | nil => exact List.Forall₂.nil
  | cons t ts ih =>
    cases i with
    | zero => exact Grows.cons_step [p] (by simp) (Grows.refl _ ts)
    | succ i => simpa [appendAt] using Grows.cons_step (t := t) [] (by simp) (ih i)

theorem appendAt_perm (teams : List Team) (i : Nat) (p : Person) (hi : i < teams.length) :
    (appendAt teams i p).flatten.Perm (p :: teams.flatten) := by
  induction teams generalizing i with
  | nil => simp at hi
  | cons t ts ih =>
    cases i with
    | zero =>
      simp only [appendAt, List.flatten_cons, List.append_assoc, List.singleton_append]
      exact List.perm_middle
    | succ i =>
      simp only [appendAt, List.flatten_cons]
      have h := ih i (by simpa using hi)
      exact (List.Perm.append_left t h).trans List.perm_middle

theorem appendAt_getD (teams : List Team) (k i : Nat) (p : Person) :
    ((appendAt teams k p).getD i []).length =
      (teams.getD i []).length + (if i = k ∧ k < teams.length then 1 else 0) := by
  induction teams generalizing k i with
  | nil => simp [appendAt]
  | cons t ts ih =>
    cases k with
    | zero =>
      cases i with
      | zero => simp [appendAt]
      | succ i => simp [appendAt]
    | succ k =>
      cases i with
      | zero => simp [appendAt]
      | succ i => simpa [appendAt] using ih k i

/-- The overflow rotation over a non-empty team list never faults; it only appends roster
members to teams and uses up the whole roster. -/
theorem overflow_rule (T : Nat) (hT : 0 < T) :
    ∀ (ps : List Person) (teams : List Team) (k : Nat), teams.length = T → k < T →
      ∃ r, overflow T teams ps k = .ok r ∧ Grows (fun x => x ∈ ps) teams r ∧
        r.flatten.Perm (teams.flatten ++ ps) := by
  intro ps
  induction ps with
  | nil =>
    intro teams k _ _
    exact ⟨teams, rfl, Grows.refl _ _, by simp⟩
  | cons p rest ih =>
    intro teams k hlen hk
    have hk' : k < teams.length := by omega
    obtain ⟨r, hr, hg, hp⟩ := ih (appendAt teams k p) ((k + 1) % T)
      (by rw [appendAt_length]; exact hlen) (Nat.mod_lt _ hT)
    refine ⟨r, ?_, ?_, ?_⟩
    · simp only [overflow, hk', if_true, Nat.pos_iff_ne_zero.mp hT, if_false]
      exact hr
    · exact ((appendAt_grows teams k p).mono (fun x hx => by simp [hx])).trans
        (hg.mono (fun x hx => List.mem_cons_of_mem _ hx))
    · exact (hp.trans (List.Perm.append_right rest (appendAt_perm teams k p hk'))).trans
        List.perm_middle.symm

/-- Number of participants team `i` receives when `m` participants are dealt round-robin over
`T` teams starting from team 0. -/
theorem overflow_sizes (T : Nat) (hT : 0 < T) :
    ∀ (ps : List Person) (teams r : List Team) (k : Nat), teams.length = T → k < T →
      overflow T teams ps k = .ok r → ∀ i, i < T →
        (r.getD i []).length + (if i < k then 1 else 0) =
          (teams.getD i []).length + (k + ps.length) / T +
            (if i < (k + ps.length) % T then 1 else 0) := by
  intro ps
  induction ps with
  | nil =>
    intro teams r k _ hk h i _
    simp only [overflow, Except.ok.injEq] at h
    subst h
    simp [Nat.div_eq_of_lt hk, Nat.mod_eq_of_lt hk]
  | cons p rest ih =>
    intro teams r k hlen hk h i hi
    have hk' : k < teams.length := by omega
    simp only [overflow, hk', if_true, Nat.pos_iff_ne_zero.mp hT, if_false] at h
    have hrec := ih (appendAt teams k p) r ((k + 1) % T)
      (by rw [appendAt_length]; exact hlen) (Nat.mod_lt _ hT) h i hi
    rw [appendAt_getD] at hrec
    simp only [List.length_cons]
    by_cases hw : k + 1 < T
    · rw [Nat.mod_eq_of_lt hw] at hrec
      have e : k + 1 + rest.length = k + (rest.length + 1) := by omega
      simp only [e] at hrec
      split_ifs at hrec ⊢ <;> omega
    · have hkT : k + 1 = T := by omega
      have hz : (k + 1) % T = 0 := by rw [hkT]; exact Nat.mod_self T
      simp only [hz, Nat.zero_add, Nat.not_lt_zero, if_false, Nat.add_zero] at hrec
      have e : k + (rest.length + 1) = rest.length + T := by omega
      have hd : (k + (rest.length + 1)) / T = rest.length / T + 1 := by
        rw [e, Nat.add_div_right _ hT]
      have hm : (k + (rest.length + 1)) % T = rest.length % T := by
        rw [e, Nat.add_mod_right]
      simp only [hd, hm]
      split_ifs at hrec ⊢ <;> omega

/-! ## The distributor as a whole -/

theorem seedCommittee_cap (n : Nat) (teams : List Team) (ps : List Person)
    (hcap : ∀ t ∈ teams, t.length ≤ n) :
    ∀ t ∈ (seedCommittee teams ps).1, t.length ≤ n + 1 := by
  revert hcap
  refine seedCommittee_cases
    (fun teams _ r => (∀ t ∈ teams, t.length ≤ n) → ∀ t ∈ r.1, t.length ≤ n + 1)
    ?_ ?_ ?_ teams ps
  · intro ps _ t ht; simp at ht
  · intro t ts ps p ps' r _ ih hcap x hx
    rcases List.mem_cons.mp hx with rfl | hx
    · have := hcap t (List.mem_cons_self _ _)
      simp only [List.length_append, List.length_singleton]
      omega
    · exact ih (fun y hy => hcap y (List.mem_cons_of_mem _ hy)) x hx
  · intro t ts ps r _ ih hcap x hx
    rcases List.mem_cons.mp hx with rfl | hx
    · have := hcap _ (List.mem_cons_self _ _)
      omega
    · exact ih (fun y hy => hcap y (List.mem_cons_of_mem _ hy)) x hx

/-- Proof rule for `distributeParticipants` with at least one team. The call returns teams; the
state `s2` handed from phase 2 to the overflow rotation has `T` teams, none above capacity, holds
every participant once, and satisfies any invariant `I` that holds after seeding and is kept by
every grade pass; moreover at that point either all teams are at capacity or nobody of grade
"a", "b" or "c" is left. -/
theorem distribute_rule (R : List Person) (T : Nat) (hT : 0 < T)
    (I : List Team → List Person → Prop)
    (h0 : I (seedCommittee (List.replicate T []) R).1 (seedCommittee (List.replicate T []) R).2)
    (hstep : ∀ g ∈ grades, ∀ teams ps, ps ≠ [] → teams.length = T → ps.Sublist R →
      I teams ps → I (fillRound g teams ps false).1 (fillRound g teams ps false).2.1) :
    ∃ (s2 : List Team × List Person) (teams : List Team),
      distributeParticipants R T = .ok teams ∧ overflow T s2.1 s2.2 0 = .ok teams ∧
      I s2.1 s2.2 ∧ s2.1.length = T ∧ (s2.1.flatten ++ s2.2).Perm R ∧ s2.2.Sublist R ∧
      (∀ t ∈ s2.1, t.length ≤ membersPerTeam) ∧
      ((∀ t ∈ s2.1, membersPerTeam ≤ t.length) ∨ ∀ x ∈ s2.2, ∀ g ∈ grades, x.Grade ≠ g) ∧
      Grows (fun x => x ∈ s2.2) s2.1 teams ∧ teams.flatten.Perm R ∧ teams.length = T := by
  let J : List Team → List Person → Prop := fun ts qs =>
    I ts qs ∧ ts.length = T ∧ (ts.flatten ++ qs).Perm R ∧ qs.Sublist R ∧
      ∀ t ∈ ts, t.length ≤ membersPerTeam
  have hJ0 : J (seedCommittee (List.replicate T []) R).1
      (seedCommittee (List.replicate T []) R).2 := by
    refine ⟨h0, ?_, ?_, seedCommittee_sublist _ _, ?_⟩
    · rw [(seedCommittee_grows _ _).length_eq]; simp
    · simpa using seedCommittee_perm (List.replicate T []) R
    · intro t ht
      have := seedCommittee_cap 0 (List.replicate T []) R
        (fun t ht => by simp [List.eq_of_mem_replicate ht]) t ht
      simp only [membersPerTeam]
      omega
  have hJstep : ∀ g ∈ grades, ∀ ts qs, qs ≠ [] → J ts qs →
      J (fillRound g ts qs false).1 (fillRound g ts qs false).2.1 := by
    intro g hg ts qs hne hJ
    obtain ⟨h1, h2, h3, h4, h5⟩ := hJ
    refine ⟨hstep g hg ts qs hne h2 h4 h1, ?_, ?_, ?_, ?_⟩
    · rw [(fillRound_grows g ts qs false).length_eq]; exact h2
    · exact (fillRound_perm g ts qs false).trans h3
    · exact (fillRound_sublist g ts qs false).trans h4
    · exact fillRound_cap g ts qs false h5
  obtain ⟨s2, hs2, hJ2, hex⟩ := fillGrades_rule grades J hJstep _ _ hJ0
  obtain ⟨h1, h2, h3, h4, h5⟩ := hJ2
  obtain ⟨teams, hov, hgr, hperm⟩ := overflow_rule T hT s2.2 s2.1 0 h2 hT
  refine ⟨s2, teams, ?_, hov, h1, h2, h3, h4, h5, hex, hgr, hperm.trans h3, ?_⟩
  · simp only [distributeParticipants, hs2]
    exact hov
  · rw [hgr.length_eq]; exact h2

/-! ## C1: conservation -/

/-- C1. For every roster `R` and team count `T ≥ 1`, `distributeParticipants R T` returns
exactly `T` teams, and the concatenation of the teams is a permutation of `R`: every
participant is placed in exactly one team, none duplicated and none dropped. -/
theorem distribute_conservation (R : List Person) (T : Nat) (hT : 1 ≤ T) :
    ∃ teams, distributeParticipants R T = .ok teams ∧ teams.length = T ∧
      teams.flatten.Perm R := by
  obtain ⟨_, teams, hd, _, _, _, _, _, _, _, _, hperm, hlen⟩ :=
    distribute_rule R T hT (fun _ _ => True) trivial (fun _ _ _ _ _ _ _ _ => trivial)
  exact ⟨teams, hd, hlen, hperm⟩

/-! ## C2: committee presence -/

theorem pickFirst_committeeCount {ps : List Person} {p : Person} {rest : List Person}
    (h : pickFirst (fun p => p.Committee) ps = some (p, rest)) :
    committeeCount ps = committeeCount rest + 1 := by
  have hp := (pickFirst_perm h).countP_eq (fun p => p.Committee)
  have hc : p.Committee = true := pickFirst_pred h
  simp only [committeeCount, ← hp, List.countP_cons, hc, if_true]

theorem committeeCount_eq_zero {ps : List Person}
    (h : ∀ x ∈ ps, x.Committee = false) : committeeCount ps = 0 := by
  simp only [committeeCount, List.countP_eq_zero]
  intro x hx
  simp [h x hx]

/-- When the committee members are at least as many as the teams, seeding gives every team
one. -/
theorem seedCommittee_all_seeded (teams : List Team) (ps : List Person)
    (h : teams.length ≤ committeeCount ps) :
    ∀ t ∈ (seedCommittee teams ps).1, ∃ x ∈ t, x.Committee = true := by
  revert h
  refine seedCommittee_cases
    (fun teams ps r => teams.length ≤ committeeCount ps → ∀ t ∈ r.1, ∃ x ∈ t, x.Committee = true)
    ?_ ?_ ?_ teams ps
  · intro ps _ t ht; simp at ht
  · intro t ts ps p ps' r h ih hle x hx
    rcases List.mem_cons.mp hx with rfl | hx
    · exact ⟨p, by simp, pickFirst_pred h⟩
    · refine ih ?_ x hx
      have := pickFirst_committeeCount h
      simp only [List.length_cons] at hle
      omega
  · intro t ts ps r h _ hle
    have := committeeCount_eq_zero (pickFirst_none h)
    simp only [List.length_cons] at hle
    omega

/-- C2. For every roster `R` and team count `T ≥ 1`, if `R` contains at least `T` participants
with `Committee = true`, then every one of the `T` teams returned by
`distributeParticipants R T` contains at least one committee member. -/
theorem distribute_committee_in_every_team (R : List Person) (T : Nat) (hT : 1 ≤ T)
    (hK : T ≤ committeeCount R) :
    ∃ teams, distributeParticipants R T = .ok teams ∧ teams.length = T ∧
      ∀ t ∈ teams, ∃ x ∈ t, x.Committee = true := by
  obtain ⟨s2, teams, hd, _, hI, _, _, _, _, _, hgr, _, hlen⟩ :=
    distribute_rule R T hT (fun ts _ => ∀ t ∈ ts, ∃ x ∈ t, x.Committee = true)
      (seedCommittee_all_seeded _ R (by simpa using hK))
      (by
        intro g _ ts qs _ _ _ hI t' ht'
        obtain ⟨t, ht, ex, rfl, _⟩ := (fillRound_grows g ts qs false).mem_right ht'
        obtain ⟨x, hx, hc⟩ := hI t ht
        exact ⟨x, List.mem_append_left _ hx, hc⟩)
  refine ⟨teams, hd, hlen, ?_⟩
  intro t' ht'
  obtain ⟨t, ht, ex, rfl, _⟩ := hgr.mem_right ht'
  obtain ⟨x, hx, hc⟩ := hI t ht
  exact ⟨x, List.mem_append_left _ hx, hc⟩

/-! ## C3: capacity -/

theorem flatten_length_le (c : Nat) (ts : List Team) (h : ∀ t ∈ ts, t.length ≤ c) :
    ts.flatten.length ≤ c * ts.length := by
  induction ts with
  | nil => simp
  | cons t ts ih =>
    have h1 := h t (List.mem_cons_self _ _)
    have h2 := ih (fun x hx => h x (List.mem_cons_of_mem _ hx))
    simp only [List.flatten_cons, List.length_append, List.length_cons, Nat.mul_succ]
    omega

theorem flatten_length_eq (c : Nat) (ts : List Team) (h : ∀ t ∈ ts, t.length = c) :
    ts.flatten.length = c * ts.length := by
  induction ts with
  | nil => simp
  | cons t ts ih =>
    have h1 := h t (List.mem_cons_self _ _)
    have h2 := ih (fun x hx => h x (List.mem_cons_of_mem _ hx))
    simp only [List.flatten_cons, List.length_append, List.length_cons, Nat.mul_succ]
    omega

/-- Teams that are each within the capacity and together hold `c` members per team are all
exactly at capacity. -/
theorem all_full_of_total (c : Nat) (ts : List Team) (h : ∀ t ∈ ts, t.length ≤ c)
    (hsum : c * ts.length ≤ ts.flatten.length) : ∀ t ∈ ts, t.length = c := by
  induction ts with
  | nil => intro t ht; simp at ht
  | cons t ts ih =>
    have h1 := h t (List.mem_cons_self _ _)
    have hrest : ∀ x ∈ ts, x.length ≤ c := fun x hx => h x (List.mem_cons_of_mem _ hx)
    have h2 := flatten_length_le c ts hrest
    simp only [List.flatten_cons, List.length_append, List.length_cons, Nat.mul_succ] at hsum
    intro x hx
    rcases List.mem_cons.mp hx with rfl | hx
    · omega
    · exact ih hrest (by omega) x hx

/-- State handed to the overflow rotation when every grade of the roster is "a", "b" or "c":
either every team holds exactly `membersPerTeam` members or the roster is used up. -/
theorem phase2_graded (R : List Person) (T : Nat) (hT : 0 < T)
    (habc : ∀ x ∈ R, x.Grade ∈ grades) :
    ∃ (s2 : List Team × List Person) (teams : List Team),
      distributeParticipants R T = .ok teams ∧ overflow T s2.1 s2.2 0 = .ok teams ∧
      s2.1.length = T ∧ (s2.1.flatten ++ s2.2).Perm R ∧
      (∀ t ∈ s2.1, t.length ≤ membersPerTeam) ∧
      ((∀ t ∈ s2.1, t.length = membersPerTeam) ∨ s2.2 = []) := by
  obtain ⟨s2, teams, hd, hov, _, hlen, hperm, hsub, hcap, hex, _, _, _⟩ :=
    distribute_rule R T hT (fun _ _ => True) trivial (fun _ _ _ _ _ _ _ _ => trivial)
  refine ⟨s2, teams, hd, hov, hlen, hperm, hcap, ?_⟩
  rcases hex with hfull | hno
  · left
    intro t ht
    exact Nat.le_antisymm (hcap t ht) (hfull t ht)
  · right
    apply List.eq_nil_iff_forall_not_mem.mpr
    intro x hx
    exact hno x hx x.Grade (habc x (hsub.subset hx)) rfl

/-- Sizes of the teams for a roster graded "a", "b", "c" that fits the total capacity: phase 2
uses up the roster and the overflow rotation has nothing to place. -/
theorem distribute_fits (R : List Person) (T : Nat) (hT : 0 < T)
    (habc : ∀ x ∈ R, x.Grade ∈ grades) (hN : R.length ≤ T * membersPerTeam) :
    ∃ (s2 : List Team × List Person) (teams : List Team),
      distributeParticipants R T = .ok teams ∧ s2.2 = [] ∧ teams = s2.1 ∧
      teams.length = T ∧ ∀ t ∈ teams, t.length ≤ membersPerTeam := by
  obtain ⟨s2, teams, hd, hov, hlen, hperm, hcap, hex⟩ := phase2_graded R T hT habc
  have hnil : s2.2 = [] := by
    rcases hex with hfull | hnil
    · have h1 := flatten_length_eq membersPerTeam s2.1 hfull
      have h2 := hperm.length_eq
      simp only [List.length_append] at h2
      rw [hlen, Nat.mul_comm] at h1
      exact List.length_eq_zero.mp (by omega)
    · exact hnil
  rw [hnil] at hov
  simp only [overflow, Except.ok.injEq] at hov
  exact ⟨s2, teams, hd, hnil, hov.symm, by rw [← hov]; exact hlen, by rw [← hov]; exact hcap⟩

/-- C3, refuted as stated: with a grade outside "a", "b", "c" a roster that fits the total
capacity (10 participants, 2 teams of 5) still leaves a team of 6. -/
theorem capacity_arbitrary_grades_counterexample :
    1 ≤ 2 ∧ rosterNineAOneD.length ≤ 2 * membersPerTeam ∧
    ∃ teams, distributeParticipants rosterNineAOneD 2 = .ok teams ∧
      ∃ t ∈ teams, membersPerTeam < t.length := by
  refine ⟨by decide, by decide, _, rfl, _, List.mem_cons_self _ _, ?_⟩
  decide

/-- C3, amended. For every roster `R` whose grades are all among "a", "b", "c" and every team
count `T ≥ 1`, if `len(R) ≤ T * membersPerTeam` then no team returned by
`distributeParticipants R T` has more than `membersPerTeam` members. -/
theorem distribute_capacity_graded (R : List Person) (T : Nat) (hT : 1 ≤ T)
    (habc : ∀ x ∈ R, x.Grade = "a" ∨ x.Grade = "b" ∨ x.Grade = "c")
    (hN : R.length ≤ T * membersPerTeam) :
    ∃ teams, distributeParticipants R T = .ok teams ∧ teams.length = T ∧
      ∀ t ∈ teams, t.length ≤ membersPerTeam := by
  obtain ⟨_, teams, hd, _, _, hlen, hcap⟩ :=
    distribute_fits R T hT (fun x hx => by simpa [grades] using habc x hx) hN
  exact ⟨teams, hd, hlen, hcap⟩

/-! ## C4: grade spread -/

theorem gradeCount_append (g : String) (t ex : List Person) :
    gradeCount g (t ++ ex) = gradeCount g t + gradeCount g ex := by
  simp [gradeCount]

theorem gradeCount_eq_zero (g : String) (ex : List Person) (h : ∀ x ∈ ex, x.Grade ≠ g) :
    gradeCount g ex = 0 := by
  simp only [gradeCount, List.countP_eq_zero]
  intro x hx
  simpa using h x hx

theorem gradeCount_singleton (g : String) (p : Person) (h : p.Grade = g) :
    gradeCount g [p] = 1 := by
  simp [gradeCount, List.countP_cons, h]

/-- The first pass for grade `g` over teams that hold nobody of that grade establishes the
spread condition. -/
theorem fillRound_spread_first (g : String) (teams : List Team) (ps : List Person) (pl : Bool)
    (hfresh : ∀ t ∈ teams, gradeCount g t = 0) :
    Spread g (fillRound g teams ps pl).1 (fillRound g teams ps pl).2.1 := by
  revert hfresh
  refine fillRound_cases g
    (fun teams _ _ r => (∀ t ∈ teams, gradeCount g t = 0) → Spread g r.1 r.2.1)
    ?_ ?_ ?_ ?_ ?_ ?_ teams ps pl
  · intro ps _ _
    exact Or.inr (by simp)
  · intro t ts ps pl r _ hf ih hfresh
    have h0 := hfresh t (List.mem_cons_self _ _)
    rcases ih (fun x hx => hfresh x (List.mem_cons_of_mem _ hx)) with h | h
    · left
      refine ⟨?_, h.2⟩
      intro x hx
      rcases List.mem_cons.mp hx with rfl | hx
      · omega
      · exact h.1 x hx
    · right
      intro x hx hlt
      rcases List.mem_cons.mp hx with rfl | hx
      · omega
      · exact h x hx hlt
  · intro t ts ps pl p _ h hfresh
    left
    refine ⟨?_, by simp⟩
    intro x hx
    rcases List.mem_cons.mp hx with rfl | hx
    · rw [gradeCount_append, hfresh t (List.mem_cons_self _ _),
        gradeCount_singleton g p (by simpa using pickFirst_pred h)]
    · rw [hfresh x (List.mem_cons_of_mem _ hx)]
      omega
  · intro t ts ps pl p ps' r _ _ h _ ih hfresh
    have h1 : gradeCount g (t ++ [p]) = 1 := by
      rw [gradeCount_append, hfresh t (List.mem_cons_self _ _),
        gradeCount_singleton g p (by simpa using pickFirst_pred h)]
    rcases ih (fun x hx => hfresh x (List.mem_cons_of_mem _ hx)) with h' | h'
    · left
      refine ⟨?_, h'.2⟩
      intro x hx
      rcases List.mem_cons.mp hx with rfl | hx
      · omega
      · exact h'.1 x hx
    · right
      intro x hx hlt
      rcases List.mem_cons.mp hx with rfl | hx
      · omega
      · exact h' x hx hlt
  · intro t ts pl _ hfresh
    left
    refine ⟨?_, by simp⟩
    intro x hx
    rw [hfresh x hx]
    omega
  · intro t ts ps pl r hr _ hn _ _ hfresh
    have hno : ∀ x ∈ ps, x.Grade ≠ g := fun x hx => by simpa using pickFirst_none hn x hx
    rw [hr, fillRound_noop g ts ps pl hno]
    left
    refine ⟨?_, hno⟩
    intro x hx
    rw [hfresh x hx]
    omega

/-- Every pass, for whatever grade, keeps the spread condition for `g`. -/
theorem fillRound_spread_keep (g g' : String) (teams : List Team) (ps : List Person)
    (pl : Bool) (h : Spread g teams ps) :
    Spread g (fillRound g' teams ps pl).1 (fillRound g' teams ps pl).2.1 := by
  rcases h with ⟨hle, hno⟩ | hsome
  · left
    refine ⟨?_, fun x hx => hno x ((fillRound_sublist g' teams ps pl).subset hx)⟩
    intro t' ht'
    obtain ⟨t, ht, ex, rfl, hex⟩ := (fillRound_grows g' teams ps pl).mem_right ht'
    rw [gradeCount_append, gradeCount_eq_zero g ex (fun x hx => hno x (hex x hx).1)]
    exact hle t ht
  · right
    intro t' ht' hlt
    obtain ⟨t, ht, ex, rfl, _⟩ := (fillRound_grows g' teams ps pl).mem_right ht'
    rw [gradeCount_append]
    simp only [List.length_append] at hlt
    have := hsome t ht (by omega)
    omega

/-- A pass for another grade leaves teams without members of grade `g` as they are in that
respect. -/
theorem fillRound_fresh_keep (g g' : String) (hne : g' ≠ g) (teams : List Team)
    (ps : List Person) (pl : Bool) (hfresh : ∀ t ∈ teams, gradeCount g t = 0) :
    ∀ t ∈ (fillRound g' teams ps pl).1, gradeCount g t = 0 := by
  intro t' ht'
  obtain ⟨t, ht, ex, rfl, hex⟩ := (fillRound_grows g' teams ps pl).mem_right ht'
  rw [gradeCount_append, hfresh t ht,
    gradeCount_eq_zero g ex (fun x hx => by rw [(hex x hx).2]; exact hne)]

/-- C4, refuted as stated: two committee members of grade "a" are seeded into teams 0 and 1,
the two further "a" participants follow them, and team 2 stays empty although four
participants of grade "a" outnumber the three teams. -/
theorem grade_spread_counterexample :
    1 ≤ 3 ∧ 3 < gradeCount "a" rosterTwoSeedsTwoA ∧
    ∃ teams, distributeParticipants rosterTwoSeedsTwoA 3 = .ok teams ∧
      ∃ X ∈ teams, ∃ Z ∈ teams,
        2 ≤ gradeCount "a" X ∧ gradeCount "a" Z = 0 ∧ Z.length < membersPerTeam := by
  refine ⟨by decide, by decide, _, rfl, [⟨"Cara", "One", true, "a"⟩, ⟨"Ann", "One", false, "a"⟩],
    by decide, [], by decide, by decide, by decide, by decide⟩

theorem pickFirst_gradeCount (g : String) {pred : Person → Bool} {ps : List Person}
    {p : Person} {rest : List Person} (h : pickFirst pred ps = some (p, rest)) :
    gradeCount g ps = gradeCount g rest + gradeCount g [p] := by
  have hp := (pickFirst_perm h).countP_eq (fun q => q.Grade == g)
  simp only [gradeCount, ← hp, List.countP_cons, List.countP_nil]
  omega

/-- A pass for another grade takes nobody of grade `g` out of the roster. -/
theorem fillRound_gradeCount_other (g g' : String) (hne : g' ≠ g) (teams : List Team)
    (ps : List Person) (pl : Bool) :
    gradeCount g (fillRound g' teams ps pl).2.1 = gradeCount g ps := by
  have hzero : ∀ {qs : List Person} {p : Person} {rest : List Person},
      pickFirst (fun q => q.Grade == g') qs = some (p, rest) → gradeCount g [p] = 0 := by
    intro qs p rest h
    refine gradeCount_eq_zero g [p] (fun x hx => ?_)
    obtain rfl := List.mem_singleton.mp hx
    have hp : x.Grade = g' := by simpa using pickFirst_pred h
    rw [hp]
    exact hne
  refine fillRound_cases g'
    (fun _ ps _ r => gradeCount g r.2.1 = gradeCount g ps) ?_ ?_ ?_ ?_ ?_ ?_ teams ps pl
  · intro ps _; rfl
  · intro t ts ps pl r _ _ ih; exact ih
  · intro t ts ps pl p _ h
    rw [pickFirst_gradeCount g h, hzero h]
    rfl
  · intro t ts ps pl p ps' r _ _ h _ ih
    rw [pickFirst_gradeCount g h, hzero h]
    exact ih
  · intro t ts pl _; rfl
  · intro t ts ps pl r _ _ _ _ ih; exact ih

/-- A pass for another grade keeps the supply condition for `g`. -/
theorem fillRound_reach_keep (g g' : String) (hne : g' ≠ g) (teams : List Team)
    (ps : List Person) (pl : Bool) (h : Reach g teams ps) :
    Reach g (fillRound g' teams ps pl).1 (fillRound g' teams ps pl).2.1 := by
  intro i hi h0
  have hgr := fillRound_grows g' teams ps pl
  have hlen := hgr.length_eq
  have hi' : i < teams.length := by omega
  obtain ⟨ex, he, hex⟩ := hgr.getElem i hi' hi
  rw [List.getD_eq_getElem _ _ hi, he, gradeCount_append] at h0
  rw [fillRound_gradeCount_other g g' hne]
  refine h i hi' ?_
  rw [List.getD_eq_getElem _ _ hi']
  omega

theorem Reach.tail {g : String} {t : Team} {ts : List Team} {ps ps' : List Person}
    (h : Reach g (t :: ts) ps) (hc : gradeCount g ps ≤ gradeCount g ps' + 1) :
    Reach g ts ps' := by
  intro i hi h0
  have := h (i + 1) (by simpa using hi) (by simpa using h0)
  omega

theorem Reach.of_no_supply {g : String} {ts : List Team} {ps : List Person}
    (h : Reach g ts ps) (hc : gradeCount g ps = 0) : ∀ t ∈ ts, 1 ≤ gradeCount g t := by
  intro t ht
  obtain ⟨i, hi, rfl⟩ := List.getElem_of_mem ht
  by_contra hlt
  have := h i hi (by rw [List.getD_eq_getElem _ _ hi]; omega)
  omega

/-- Under the supply condition the pass for grade `g` leaves every team that is still below the
capacity with a member of grade `g`. -/
theorem fillRound_reach_first (g : String) (teams : List Team) (ps : List Person) (pl : Bool)
    (h : Reach g teams ps) :
    ∀ t ∈ (fillRound g teams ps pl).1, t.length < membersPerTeam → 1 ≤ gradeCount g t := by
  revert h
  refine fillRound_cases g
    (fun teams ps _ r => Reach g teams ps →
      ∀ t ∈ r.1, t.length < membersPerTeam → 1 ≤ gradeCount g t)
    ?_ ?_ ?_ ?_ ?_ ?_ teams ps pl
  · intro ps _ _ t ht
    simp at ht
  · intro t ts ps pl r _ hf ih h x hx hlt
    rcases List.mem_cons.mp hx with rfl | hx
    · omega
    · exact ih (h.tail (by omega)) x hx hlt
  · intro t ts ps pl p _ hp h x hx _
    have hone : gradeCount g [p] = 1 :=
      gradeCount_singleton g p (by simpa using pickFirst_pred hp)
    have hc := pickFirst_gradeCount g hp
    rcases List.mem_cons.mp hx with rfl | hx
    · rw [gradeCount_append, hone]
      omega
    · have hrest : Reach g ts [] := h.tail (by omega)
      exact hrest.of_no_supply (by simp [gradeCount]) x hx
  · intro t ts ps pl p ps' r _ _ hp _ ih h x hx hlt
    have hone : gradeCount g [p] = 1 :=
      gradeCount_singleton g p (by simpa using pickFirst_pred hp)
    have hc := pickFirst_gradeCount g hp
    rcases List.mem_cons.mp hx with rfl | hx
    · rw [gradeCount_append, hone]
      omega
    · exact ih (h.tail (by omega)) x hx hlt
  · intro t ts pl _ h x hx _
    exact h.of_no_supply (by simp [gradeCount]) x hx
  · intro t ts ps pl r hr _ hn _ _ h x hx _
    have hno : ∀ y ∈ ps, y.Grade ≠ g := fun y hy => by simpa using pickFirst_none hn y hy
    rw [hr, fillRound_noop g ts ps pl hno] at hx
    exact h.of_no_supply (gradeCount_eq_zero g ps hno) x hx

/-- The roster of the counterexample violates the supply condition: after the seeding team 2
holds nobody of grade "a", and only two participants of grade "a" are left in the roster. -/
theorem rosterTwoSeedsTwoA_supply :
    gradeCount "a" ((seedCommittee (List.replicate 3 []) rosterTwoSeedsTwoA).1.getD 2 []) = 0 ∧
      gradeCount "a" (seedCommittee (List.replicate 3 []) rosterTwoSeedsTwoA).2 = 2 := by
  decide

/-- C4, amended. For every roster `R`, team count `T ≥ 1` and grade `g` among "a", "b", "c": if
`R` has more participants of grade `g` than there are teams and, after the committee seeding of
phase 1, every team that holds no grade-`g` member has an index smaller than the number of
grade-`g` participants still in the roster, then in `distributeParticipants R T` no team holds
two or more grade-`g` members while another team holds zero grade-`g` members and has fewer than
`membersPerTeam` members. -/
theorem distribute_grade_spread (R : List Person) (T : Nat) (g : String) (hT : 1 ≤ T)
    (hg : g = "a" ∨ g = "b" ∨ g = "c") (_hmany : T < gradeCount g R)
    (hreach : ∀ j, j < T →
      gradeCount g ((seedCommittee (List.replicate T []) R).1.getD j []) = 0 →
      j < gradeCount g (seedCommittee (List.replicate T []) R).2) :
    ∃ teams, distributeParticipants R T = .ok teams ∧
      ¬ ∃ X ∈ teams, ∃ Z ∈ teams,
        2 ≤ gradeCount g X ∧ gradeCount g Z = 0 ∧ Z.length < membersPerTeam := by
  have hmem : g ∈ grades := by simpa [grades] using hg
  obtain ⟨s2, teams, hd, _, hI, _, _, _, _, hex, hgr, _, _⟩ :=
    distribute_rule R T hT
      (fun ts qs => Reach g ts qs ∨ Spread g ts qs)
      (by
        left
        intro j hj h0
        rw [(seedCommittee_grows (List.replicate T []) R).length_eq,
          List.length_replicate] at hj
        exact hreach j hj h0)
      (by
        intro g' _ ts qs _ _ _ hI
        rcases hI with hre | hsp
        · by_cases hgg : g' = g
          · subst hgg
            exact Or.inr (Or.inr (fillRound_reach_first g' ts qs false hre))
          · exact Or.inl (fillRound_reach_keep g g' hgg ts qs false hre)
        · exact Or.inr (fillRound_spread_keep g g' ts qs false hsp))
  have hsp : Spread g s2.1 s2.2 := by
    rcases hI with hre | hsp
    · right
      rcases hex with hfull | hno
      · intro t ht hlt
        have := hfull t ht
        omega
      · intro t ht _
        exact hre.of_no_supply
          (gradeCount_eq_zero g s2.2 (fun x hx => hno x hx g hmem)) t ht
    · exact hsp
  refine ⟨teams, hd, ?_⟩
  rintro ⟨X, hX, Z, hZ, h2, h0, hlt⟩
  rcases hsp with ⟨hle, hno⟩ | hsome
  · obtain ⟨t, ht, ex, rfl, hexm⟩ := hgr.mem_right hX
    rw [gradeCount_append, gradeCount_eq_zero g ex (fun x hx => hno x (hexm x hx))] at h2
    have := hle t ht
    omega
  · obtain ⟨t, ht, ex, rfl, _⟩ := hgr.mem_right hZ
    rw [gradeCount_append] at h0
    simp only [List.length_append] at hlt
    have := hsome t ht (by omega)
    omega

/-! ## C5: team-count policy -/

/-- The `default` branch of the team-count switch computes the rounded-up quotient. -/
theorem ceil_fifth (n : Nat) :
    (if n % membersPerTeam ≠ 0 then n / membersPerTeam + 1 else n / membersPerTeam) =
      ⌈(n : ℚ) / (membersPerTeam : ℚ)⌉₊ := by
  simp only [membersPerTeam]
  symm
  split_ifs with h
  · rw [Nat.ceil_eq_iff (by omega)]
    constructor
    · rw [lt_div_iff₀ (by norm_num)]
      have : (n / 5 + 1 - 1) * 5 < n := by omega
      exact_mod_cast this
    · rw [div_le_iff₀ (by norm_num)]
      have : n ≤ (n / 5 + 1) * 5 := by omega
      exact_mod_cast this
  · have : (n : ℚ) / ((5 : ℕ) : ℚ) = ((n / 5 : ℕ) : ℚ) := by
      rw [div_eq_iff (by norm_num)]
      have : n = (n / 5) * 5 := by omega
      exact_mod_cast this
    rw [this, Nat.ceil_natCast]

/-- C5. The team count selected in `main` is, for every roster size `N`: 6 when `N ≥ 30`, 4 when
`24 ≤ N < 30`, and `N / membersPerTeam` rounded up when `N < 24`; in particular it is 4 for
`N = 29`, 6 for `N = 30`, 2 for `N = 10` and 3 for `N = 11`. -/
theorem selectTeamCount_policy (N : Nat) :
    selectTeamCount N =
      (if 30 ≤ N then 6 else if 24 ≤ N then 4 else ⌈(N : ℚ) / (membersPerTeam : ℚ)⌉₊) ∧
    selectTeamCount 29 = 4 ∧ selectTeamCount 30 = 6 ∧ selectTeamCount 10 = 2 ∧
    selectTeamCount 11 = 3 := by
  refine ⟨?_, by decide, by decide, by decide, by decide⟩
  unfold selectTeamCount
  split_ifs with h1 h2 h3
  · rfl
  · rfl
  · rw [← ceil_fifth, if_pos h3]
  · rw [← ceil_fifth, if_neg h3]

/-! ## C10: sizes of the teams of a roster that reaches the total capacity -/

/-- Sizes of the teams for a roster graded "a", "b", "c" with at least `membersPerTeam`
participants per team: phase 2 fills every team to the capacity, and the overflow rotation deals
the `N - membersPerTeam * T` others round-robin from team 0. -/
theorem distribute_sizes (R : List Person) (T : Nat) (hT : 0 < T)
    (habc : ∀ x ∈ R, x.Grade ∈ grades) (hN : T * membersPerTeam ≤ R.length) :
    ∃ teams, distributeParticipants R T = .ok teams ∧ teams.length = T ∧
      ∀ i, i < T → (teams.getD i []).length =
        membersPerTeam + (R.length - membersPerTeam * T) / T +
          (if i < (R.length - membersPerTeam * T) % T then 1 else 0) := by
  obtain ⟨s2, teams, hd, hov, hlen, hperm, hcap, hex⟩ := phase2_graded R T hT habc
  have hsum := hperm.length_eq
  simp only [List.length_append] at hsum
  have hfull : ∀ t ∈ s2.1, t.length = membersPerTeam := by
    rcases hex with hfull | hnil
    · exact hfull
    · refine all_full_of_total membersPerTeam s2.1 hcap ?_
      rw [hnil] at hsum
      simp only [List.length_nil, Nat.add_zero] at hsum
      rw [hlen, hsum, Nat.mul_comm]
      exact hN
  have hflat := flatten_length_eq membersPerTeam s2.1 hfull
  rw [hlen] at hflat
  have hrest : s2.2.length = R.length - membersPerTeam * T := by omega
  refine ⟨teams, hd, ?_, ?_⟩
  · obtain ⟨r, hr, hg, _⟩ := overflow_rule T hT s2.2 s2.1 0 hlen hT
    rw [hov] at hr
    simp only [Except.ok.injEq] at hr
    subst hr
    rw [hg.length_eq]; exact hlen
  · intro i hi
    have hsz := overflow_sizes T hT s2.2 s2.1 teams 0 hlen hT hov i hi
    have hi' : i < s2.1.length := by omega
    have hbase : (s2.1.getD i []).length = membersPerTeam := by
      rw [List.getD_eq_getElem _ _ hi']
      exact hfull _ (List.getElem_mem _)
    simp only [Nat.not_lt_zero, if_false, Nat.add_zero, Nat.zero_add, hbase, hrest] at hsz
    exact hsz

/-- C10. For every roster `R` of size `N` whose grades are all among "a", "b", "c" and every team
count `T ≥ 1` with `N ≥ T * membersPerTeam`: in `distributeParticipants R T`, team `i` has exactly
`membersPerTeam + (N - 5T) / T + (1 if i < (N - 5T) mod T, else 0)` members: every team is first
filled to capacity and the leftover participants are dealt round-robin from team 0. -/
theorem distribute_overflow_sizes (R : List Person) (T : Nat) (hT : 1 ≤ T)
    (habc : ∀ x ∈ R, x.Grade = "a" ∨ x.Grade = "b" ∨ x.Grade = "c")
    (hN : T * membersPerTeam ≤ R.length) :
    ∃ teams, distributeParticipants R T = .ok teams ∧ teams.length = T ∧
      ∀ (i : Nat) (hi : i < teams.length), teams[i].length =
        membersPerTeam + (R.length - 5 * T) / T + (if i < (R.length - 5 * T) % T then 1 else 0) := by
  obtain ⟨teams, hd, hlen, hsz⟩ :=
    distribute_sizes R T hT (fun x hx => by simpa [grades] using habc x hx) hN
  refine ⟨teams, hd, hlen, ?_⟩
  intro i hi
  have := hsz i (by omega)
  rw [List.getD_eq_getElem _ _ hi] at this
  simpa [membersPerTeam] using this

/-! ## C8: the end-to-end scenario -/

/-- The members of grade "a", "b" and "c" are counted apart; they make up the whole roster
only when nobody has another grade. -/
theorem grade_counts (R : List Person) :
    gradeCount "a" R + gradeCount "b" R + gradeCount "c" R ≤ R.length ∧
      (gradeCount "a" R + gradeCount "b" R + gradeCount "c" R = R.length →
        ∀ x ∈ R, x.Grade ∈ grades) := by
  induction R with
  | nil => simp [gradeCount]
  | cons x xs ih =>
    obtain ⟨ih1, ih2⟩ := ih
    have hab : ("a" : String) ≠ "b" := by decide
    have hac : ("a" : String) ≠ "c" := by decide
    have hbc : ("b" : String) ≠ "c" := by decide
    simp only [gradeCount, List.countP_cons, List.length_cons, beq_iff_eq] at ih1 ih2 ⊢
    by_cases ha : x.Grade = "a"
    · simp only [ha, hab, hac, if_true, if_false]
      refine ⟨by omega, fun h y hy => ?_⟩
      rcases List.mem_cons.mp hy with rfl | hy
      · simp [grades, ha]
      · exact ih2 (by omega) y hy
    · by_cases hb : x.Grade = "b"
      · simp only [hb, hab.symm, hbc, if_true, if_false]
        refine ⟨by omega, fun h y hy => ?_⟩
        rcases List.mem_cons.mp hy with rfl | hy
        · simp [grades, hb]
        · exact ih2 (by omega) y hy
      · by_cases hc : x.Grade = "c"
        · simp only [hc, hac.symm, hbc.symm, if_true, if_false]
          refine ⟨by omega, fun h y hy => ?_⟩
          rcases List.mem_cons.mp hy with rfl | hy
          · simp [grades, hc]
          · exact ih2 (by omega) y hy
        · simp only [ha, hb, hc, if_false]
          exact ⟨by omega, fun h => by omega⟩

/-- C8. For every roster `R` of 24 participants of which 6 have `Committee = true` and whose
grades are 8 "a", 8 "b" and 8 "c" (in any order), the selected team count is 4 and every one of
the 4 teams returned by `distributeParticipants R 4` has exactly 6 members. -/
theorem distribute_twenty_four (R : List Person) (hlen : R.length = 24)
    (_hcom : committeeCount R = 6) (ha : gradeCount "a" R = 8) (hb : gradeCount "b" R = 8)
    (hc : gradeCount "c" R = 8) :
    selectTeamCount R.length = 4 ∧
      ∃ teams, distributeParticipants R 4 = .ok teams ∧ teams.length = 4 ∧
        ∀ t ∈ teams, t.length = 6 := by
  refine ⟨by rw [hlen]; decide, ?_⟩
  have habc := (grade_counts R).2 (by omega)
  obtain ⟨teams, hd, hl, hsz⟩ :=
    distribute_sizes R 4 (by decide) habc (by rw [hlen]; decide)
  refine ⟨teams, hd, hl, ?_⟩
  intro t ht
  obtain ⟨i, hi, rfl⟩ := List.getElem_of_mem ht
  have := hsz i (by omega)
  rw [List.getD_eq_getElem _ _ hi, hlen] at this
  simpa [membersPerTeam] using this

/-! ## C9: seeding order when committee members are fewer than teams -/

theorem filter_committee_split {l1 l2 : List Person} {p : Person}
    (hp : p.Committee = true) (hl : ∀ x ∈ l1, x.Committee = false) :
    (l1 ++ p :: l2).filter (fun q => q.Committee) = p :: l2.filter (fun q => q.Committee) ∧
    (l1 ++ p :: l2).filter (fun q => !q.Committee) =
      (l1 ++ l2).filter (fun q => !q.Committee) ∧
    (l1 ++ l2).filter (fun q => q.Committee) = l2.filter (fun q => q.Committee) := by
  have h1 : l1.filter (fun q => q.Committee) = [] := by
    rw [List.filter_eq_nil_iff]
    intro x hx
    simp [hl x hx]
  refine ⟨?_, ?_, ?_⟩
  · simp [List.filter_append, h1, List.filter_cons, hp]
  · simp [List.filter_append, List.filter_cons, hp]
  · simp [List.filter_append, h1]

/-- With no more committee members than teams, seeding `n` empty teams puts the committee
members, in roster order, one each into the first teams and leaves the other teams empty; the
remaining roster is the non-committee participants in roster order. -/
theorem seedCommittee_few (n : Nat) :
    ∀ (ps : List Person), committeeCount ps ≤ n →
      seedCommittee (List.replicate n []) ps =
        ((ps.filter (fun q => q.Committee)).map (fun c => [c]) ++
            List.replicate (n - committeeCount ps) [],
          ps.filter (fun q => !q.Committee)) := by
  induction n with
  | zero =>
    intro ps h
    have h0 : committeeCount ps = 0 := Nat.le_zero.mp h
    have hall : ∀ x ∈ ps, x.Committee = false := by
      intro x hx
      have := List.countP_eq_zero.mp h0 x hx
      simpa using this
    have h1 : ps.filter (fun q => q.Committee) = [] := by
      rw [List.filter_eq_nil_iff]
      intro x hx
      simp [hall x hx]
    have h2 : ps.filter (fun q => !q.Committee) = ps := by
      rw [List.filter_eq_self]
      intro x hx
      simp [hall x hx]
    simp [seedCommittee, h1, h2]
  | succ n ih =>
    intro ps h
    rw [List.replicate_succ]
    cases hp : pickFirst (fun p => p.Committee) ps with
    | none =>
      have hall := pickFirst_none hp
      have h0 := committeeCount_eq_zero hall
      have h1 : ps.filter (fun q => q.Committee) = [] := by
        rw [List.filter_eq_nil_iff]
        intro x hx
        simp [hall x hx]
      simp only [seedCommittee, hp, ih ps (by omega), h0, h1, List.map_nil, List.nil_append,
        Nat.sub_zero, List.replicate_succ]
    | some r =>
      obtain ⟨p, rest⟩ := r
      have hc := pickFirst_committeeCount hp
      obtain ⟨l1, l2, rfl, rfl, hpc, hl1⟩ := pickFirst_some hp
      obtain ⟨e1, e2, e3⟩ := @filter_committee_split l1 l2 p hpc hl1
      have hsub : n + 1 - committeeCount (l1 ++ p :: l2) = n - committeeCount (l1 ++ l2) := by
        omega
      simp only [seedCommittee, hp, ih (l1 ++ l2) (by omega), e1, e2, e3, hsub, List.map_cons,
        List.nil_append, List.cons_append]

/-- C9. For every roster `R` with `K` committee members and every team count `T > K`: in
`distributeParticipants R T`, for each `i < K` team `i` contains exactly one committee member,
which is its first member and is the `(i+1)`-th committee member of `R` in roster order; and
every team with index `≥ K` contains no committee member. -/
theorem distribute_committee_order (R : List Person) (T : Nat) (hK : committeeCount R < T) :
    ∃ teams, distributeParticipants R T = .ok teams ∧ teams.length = T ∧
      (∀ i, i < committeeCount R → ∃ t c, teams[i]? = some t ∧
        (R.filter (fun q => q.Committee))[i]? = some c ∧ t.head? = some c ∧
        t.filter (fun q => q.Committee) = [c]) ∧
      (∀ i t, committeeCount R ≤ i → teams[i]? = some t →
        t.filter (fun q => q.Committee) = []) := by
  have hT : 0 < T := by omega
  have hseed := seedCommittee_few T R (by omega)
  obtain ⟨s2, teams, hd, _, hI, _, _, _, _, _, hgr, _, hlen⟩ :=
    distribute_rule R T hT
      (fun ts qs => Grows (fun x => x.Committee = false)
          (seedCommittee (List.replicate T []) R).1 ts ∧ ∀ x ∈ qs, x.Committee = false)
      ⟨Grows.refl _ _, by
        rw [hseed]
        intro x hx
        simpa using (List.mem_filter.mp hx).2⟩
      (by
        intro g _ ts qs _ _ _ hI
        refine ⟨hI.1.trans ((fillRound_grows g ts qs false).mono
          (fun x hx => hI.2 x hx.1)), ?_⟩
        intro x hx
        exact hI.2 x ((fillRound_sublist g ts qs false).subset hx))
  have hall : Grows (fun x => x.Committee = false)
      ((R.filter (fun q => q.Committee)).map (fun c => [c]) ++
        List.replicate (T - committeeCount R) []) teams := by
    have := hI.1.trans (hgr.mono (fun x hx => hI.2 x hx))
    rw [hseed] at this
    exact this
  have hKlen : (R.filter (fun q => q.Committee)).length = committeeCount R := by
    simp [committeeCount, List.countP_eq_length_filter]
  have hlen0 : ((R.filter (fun q : Person => q.Committee)).map (fun c => [c]) ++
      (List.replicate (T - committeeCount R) [] : List Team)).length = T := by
    simp only [List.length_append, List.length_map, List.length_replicate, hKlen]
    omega
  have hnone : ∀ ex : List Person, (∀ x ∈ ex, x.Committee = false) →
      ex.filter (fun q => q.Committee) = [] := by
    intro ex hex
    rw [List.filter_eq_nil_iff]
    intro x hx
    simp [hex x hx]
  refine ⟨teams, hd, hlen, ?_, ?_⟩
  · intro i hi
    have hiK : i < (R.filter (fun q => q.Committee)).length := by omega
    obtain ⟨ex, he, hex⟩ := hall.getElem i (by omega) (by omega)
    have hc : ((R.filter (fun q => q.Committee))[i]).Committee = true := by
      have := List.getElem_mem hiK
      simpa using (List.mem_filter.mp this).2
    rw [List.getElem_append_left (by simpa using hiK)] at he
    simp only [List.getElem_map] at he
    refine ⟨teams[i], (R.filter (fun q => q.Committee))[i], List.getElem?_eq_getElem _,
      List.getElem?_eq_getElem _, ?_, ?_⟩
    · rw [he]; rfl
    · rw [he, List.filter_append, hnone ex hex]
      simp [List.filter_cons, hc]
  · intro i t hi ht
    obtain ⟨hi', rfl⟩ := List.getElem?_eq_some_iff.mp ht
    obtain ⟨ex, he, hex⟩ := hall.getElem i (by omega) hi'
    rw [List.getElem_append_right (by simpa [hKlen] using hi)] at he
    simp only [List.getElem_replicate, List.nil_append] at he
    rw [he]
    exact hnone ex hex

/-! ## The map -/

theorem mapGet_mapSet_same (m : GradeMap) (k : String) (v : Person) :
    mapGet (mapSet m k v) k = some v := by
  induction m with
  | nil => simp [mapSet, mapGet]
  | cons e rest ih =>
    obtain ⟨k', v'⟩ := e
    by_cases h : k' = k
    · simp [mapSet, mapGet, h]
    · simp [mapSet, mapGet, h, ih]

theorem mapGet_mapSet_other (m : GradeMap) (k k' : String) (v : Person) (hne : k' ≠ k) :
    mapGet (mapSet m k v) k' = mapGet m k' := by
  induction m with
  | nil => simp [mapSet, mapGet, hne.symm]
  | cons e rest ih =>
    obtain ⟨k0, v0⟩ := e
    by_cases h : k0 = k
    · subst h
      simp [mapSet, mapGet, hne.symm]
    · by_cases h' : k0 = k'
      · subst h'
        simp [mapSet, mapGet, h]
      · simp [mapSet, mapGet, h, h', ih]

theorem mem_mapKeys_mapSet (m : GradeMap) (k k' : String) (v : Person) :
    k' ∈ mapKeys (mapSet m k v) ↔ k' = k ∨ k' ∈ mapKeys m := by
  induction m with
  | nil => simp [mapSet, mapKeys]
  | cons e rest ih =>
    obtain ⟨k0, v0⟩ := e
    simp only [mapKeys] at ih
    by_cases h : k0 = k
    · subst h
      simp [mapSet, mapKeys]
    · simp only [mapSet, h, if_false, mapKeys, List.map_cons, List.mem_cons, ih]
      tauto

theorem nodup_mapKeys_mapSet (m : GradeMap) (k : String) (v : Person)
    (h : (mapKeys m).Nodup) : (mapKeys (mapSet m k v)).Nodup := by
  induction m with
  | nil => simp [mapSet, mapKeys]
  | cons e rest ih =>
    obtain ⟨k0, v0⟩ := e
    simp only [mapKeys, List.map_cons, List.nodup_cons] at h
    by_cases hk : k0 = k
    · subst hk
      simpa [mapSet, mapKeys] using h
    · have hrest := ih h.2
      have hmem := mem_mapKeys_mapSet rest k k0 v
      simp only [mapSet, hk, if_false, mapKeys, List.map_cons, List.nodup_cons]
      simp only [mapKeys] at hmem hrest
      refine ⟨?_, hrest⟩
      rw [hmem]
      rintro (h1 | h1)
      · exact hk h1
      · exact h.1 h1

theorem mapGet_eq_none_iff (m : GradeMap) (k : String) :
    mapGet m k = none ↔ k ∉ mapKeys m := by
  induction m with
  | nil => simp [mapGet, mapKeys]
  | cons e rest ih =>
    obtain ⟨k0, v0⟩ := e
    simp only [mapKeys] at ih
    by_cases h : k0 = k
    · simp [mapGet, mapKeys, h]
    · simp only [mapGet, h, if_false, ih, mapKeys, List.map_cons, List.mem_cons, not_or]
      constructor
      · intro h'; exact ⟨fun e => h e.symm, h'⟩
      · intro h'; exact h'.2

theorem mapGet_of_mem (m : GradeMap) (k : String) (h : k ∈ mapKeys m) :
    ∃ v, mapGet m k = some v := by
  cases hg : mapGet m k with
  | none => exact absurd h ((mapGet_eq_none_iff m k).mp hg)
  | some v => exact ⟨v, rfl⟩

theorem mem_mapKeys_of_mapGet (m : GradeMap) (k : String) (v : Person)
    (h : mapGet m k = some v) : k ∈ mapKeys m := by
  by_contra hc
  rw [(mapGet_eq_none_iff m k).mpr hc] at h
  simp at h

/-! ## The merge loops -/

theorem row_get (l : List String) (i : Nat) (h : i < l.length) :
    l[i]? = some (l.getD i "") := by
  rw [List.getD_eq_getElem _ _ h, List.getElem?_eq_getElem h]

/-- Loop rule for `forRows`: when the body, on every row satisfying `ok`, succeeds and takes the
invariant from the rows done so far to one row more, the loop succeeds on rows that all satisfy
`ok` and the invariant holds for all of them. -/
theorem forRows_rule (body : GradeMap → List String → Except Fault GradeMap)
    (ok : List String → Prop) (I : List (List String) → GradeMap → Prop)
    (hstep : ∀ done row m, ok row → I done m → ∃ m', body m row = .ok m' ∧ I (done ++ [row]) m') :
    ∀ (rows done : List (List String)) (m : GradeMap), (∀ r ∈ rows, ok r) → I done m →
      ∃ m', forRows body m rows = .ok m' ∧ I (done ++ rows) m' := by
  intro rows
  induction rows with
  | nil =>
    intro done m _ hI
    exact ⟨m, rfl, by simpa using hI⟩
  | cons row rows ih =>
    intro done m hok hI
    obtain ⟨m1, hb, hI1⟩ := hstep done row m (hok row (List.mem_cons_self _ _)) hI
    obtain ⟨m', hf, hI'⟩ := ih (done ++ [row]) m1
      (fun r hr => hok r (List.mem_cons_of_mem _ hr)) hI1
    refine ⟨m', ?_, by simpa using hI'⟩
    simp only [forRows, hb]
    exact hf

theorem addRegistrant_eq (m : GradeMap) (p : List String) (h : 5 ≤ p.length) :
    addRegistrant m p =
      .ok (mapSet m (registrantKey p) ⟨p.getD 3 "", p.getD 4 "", false, "c"⟩) := by
  simp only [addRegistrant, row_get p 3 (by omega), row_get p 4 (by omega), registrantKey]

theorem ensureRegistrant_eq (m : GradeMap) (p : List String) (h : 5 ≤ p.length)
    (hk : registrantKey p ∈ mapKeys m) : ensureRegistrant m p = .ok m := by
  obtain ⟨v, hv⟩ := mapGet_of_mem m _ hk
  simp only [registrantKey] at hv
  simp only [ensureRegistrant, row_get p 3 (by omega), row_get p 4 (by omega), hv]

theorem applyGrading_eq (toLower : String → String) (m : GradeMap) (r : List String)
    (h : 4 ≤ r.length) :
    applyGrading toLower m r = .ok
      (match mapGet m (gradingKey r) with
       | some person => mapSet m (gradingKey r)
          { person with Committee := toLower (r.getD 2 "") == "true",
                        Grade := toLower (r.getD 3 "") }
       | none => m) := by
  simp only [applyGrading, row_get r 0 (by omega), row_get r 1 (by omega),
    row_get r 2 (by omega), row_get r 3 (by omega), gradingKey]
  cases mapGet m (fullName (r.getD 0 "") (r.getD 1 "")) <;> rfl

theorem expectedStatus_nil (toLower : String → String) (k : String) :
    expectedStatus toLower [] k = (false, "c") := rfl

theorem expectedStatus_snoc (toLower : String → String) (done : List (List String))
    (r : List String) (k : String) :
    expectedStatus toLower (done ++ [r]) k =
      if gradingKey r = k then (toLower (r.getD 2 "") == "true", toLower (r.getD 3 ""))
      else expectedStatus toLower done k := by
  by_cases h : gradingKey r = k
  · simp [expectedStatus, List.filter_append, List.filter_cons, h]
  · simp [expectedStatus, List.filter_append, List.filter_cons, h]

/-- What the roster merge returns on rows wide enough for the columns it reads: the keys are the
registrant full names, each once, and every entry carries the status the spec expects. -/
theorem mergeRoster_spec (toLower : String → String) (regs grads : List (List String))
    (hr : ∀ p ∈ regs, 5 ≤ p.length) (hg : ∀ r ∈ grads, 4 ≤ r.length) :
    ∃ m, mergeRoster toLower regs grads = .ok m ∧ (mapKeys m).Nodup ∧
      (∀ k, k ∈ mapKeys m ↔ k ∈ regs.map registrantKey) ∧
      ∀ k v, mapGet m k = some v → (v.Committee, v.Grade) = expectedStatus toLower grads k := by
  -- first loop
  obtain ⟨m1, h1, hn1, hk1, hv1⟩ := forRows_rule addRegistrant (fun p => 5 ≤ p.length)
    (fun done m => (mapKeys m).Nodup ∧ (∀ k, k ∈ mapKeys m ↔ k ∈ done.map registrantKey) ∧
      ∀ k v, mapGet m k = some v → v.Committee = false ∧ v.Grade = "c")
    (by
      intro done row m hrow hI
      obtain ⟨hn, hk, hv⟩ := hI
      refine ⟨_, addRegistrant_eq m row hrow, nodup_mapKeys_mapSet m _ _ hn, ?_, ?_⟩
      · intro k
        rw [mem_mapKeys_mapSet, hk]
        simp only [List.map_append, List.map_cons, List.map_nil, List.mem_append,
          List.mem_singleton]
        tauto
      · intro k v hget
        by_cases hkk : k = registrantKey row
        · subst hkk
          rw [mapGet_mapSet_same] at hget
          simp only [Option.some.injEq] at hget
          subst hget
          exact ⟨rfl, rfl⟩
        · rw [mapGet_mapSet_other _ _ _ _ hkk] at hget
          exact hv k v hget)
    regs [] [] hr ⟨by simp [mapKeys], by simp [mapKeys], by simp [mapGet]⟩
  simp only [List.nil_append] at hk1
  -- second loop
  obtain ⟨m2, h2, hn2, hk2, hv2⟩ := forRows_rule (applyGrading toLower) (fun r => 4 ≤ r.length)
    (fun done m => (mapKeys m).Nodup ∧ (∀ k, k ∈ mapKeys m ↔ k ∈ regs.map registrantKey) ∧
      ∀ k v, mapGet m k = some v → (v.Committee, v.Grade) = expectedStatus toLower done k)
    (by
      intro done row m hrow hI
      obtain ⟨hn, hk, hv⟩ := hI
      refine ⟨_, applyGrading_eq toLower m row hrow, ?_⟩
      cases hget : mapGet m (gradingKey row) with
      | none =>
        refine ⟨hn, hk, ?_⟩
        intro k v hkv
        have hne : gradingKey row ≠ k := by
          rintro rfl
          rw [hget] at hkv
          simp at hkv
        rw [expectedStatus_snoc, if_neg hne]
        exact hv k v hkv
      | some person =>
        have hmem := mem_mapKeys_of_mapGet m _ _ hget
        refine ⟨nodup_mapKeys_mapSet m _ _ hn, ?_, ?_⟩
        · intro k
          rw [mem_mapKeys_mapSet, ← hk]
          constructor
          · rintro (rfl | h)
            · exact hmem
            · exact h
          · intro h; exact Or.inr h
        · intro k v hkv
          by_cases hkk : k = gradingKey row
          · subst hkk
            simp only [mapGet_mapSet_same, Option.some.injEq] at hkv
            subst hkv
            rw [expectedStatus_snoc, if_pos rfl]
          · simp only [mapGet_mapSet_other _ _ _ _ hkk] at hkv
            rw [expectedStatus_snoc, if_neg (fun e => hkk e.symm)]
            exact hv k v hkv)
    grads [] m1 hg ⟨hn1, hk1, by
      intro k v hkv
      obtain ⟨hc, hgr⟩ := hv1 k v hkv
      rw [expectedStatus_nil, hc, hgr]⟩
  simp only [List.nil_append] at hv2
  -- third loop
  obtain ⟨m3, h3, hm3⟩ := forRows_rule ensureRegistrant
    (fun p => 5 ≤ p.length ∧ registrantKey p ∈ mapKeys m2) (fun _ m => m = m2)
    (by
      intro done row m hrow hI
      subst hI
      exact ⟨m, ensureRegistrant_eq m row hrow.1 hrow.2, rfl⟩)
    regs [] m2
    (fun p hp => ⟨hr p hp, (hk2 _).mpr (List.mem_map_of_mem _ hp)⟩) rfl
  subst hm3
  refine ⟨m3, ?_, hn2, hk2, hv2⟩
  simp only [mergeRoster, h1, h2]
  exact h3

/-! ## C6 and C7: the merged roster -/

/-- C6. For every list of registrant rows (at least five columns each) and every list of grading
rows (at least four columns each), the key set of the merged roster map built in `main` is
exactly the set of registrant full names, with one entry per key: every registrant produces an
entry, and a grading row whose full name matches no registrant adds no entry. -/
theorem mergeRoster_keys (toLower : String → String) (regs grads : List (List String))
    (hr : ∀ p ∈ regs, 5 ≤ p.length) (hg : ∀ r ∈ grads, 4 ≤ r.length) :
    ∃ m, mergeRoster toLower regs grads = .ok m ∧ (mapKeys m).Nodup ∧
      (∀ p ∈ regs, fullName (p.getD 3 "") (p.getD 4 "") ∈ mapKeys m) ∧
      (∀ k ∈ mapKeys m, ∃ p ∈ regs, k = fullName (p.getD 3 "") (p.getD 4 "")) := by
  obtain ⟨m, hm, hn, hk, _⟩ := mergeRoster_spec toLower regs grads hr hg
  refine ⟨m, hm, hn, ?_, ?_⟩
  · intro p hp
    exact (hk _).mpr (List.mem_map_of_mem registrantKey hp)
  · intro k hkm
    obtain ⟨p, hp, rfl⟩ := List.mem_map.mp ((hk k).mp hkm)
    exact ⟨p, hp, rfl⟩

/-- C7. For every list of registrant rows and grading rows (wide enough for the columns read),
the merged entry for a registrant key `k` has: if at least one grading row has key `k`,
`Committee` = (lower-cased committee text of the last such row equals "true") and `Grade` = the
lower-cased grade text of that last row; otherwise `Committee = false` and `Grade = "c"`. -/
theorem mergeRoster_precedence (toLower : String → String) (regs grads : List (List String))
    (hr : ∀ p ∈ regs, 5 ≤ p.length) (hg : ∀ r ∈ grads, 4 ≤ r.length) :
    ∃ m, mergeRoster toLower regs grads = .ok m ∧
      ∀ p ∈ regs, ∃ v, mapGet m (fullName (p.getD 3 "") (p.getD 4 "")) = some v ∧
        match (grads.filter
          (fun r => fullName (r.getD 0 "") (r.getD 1 "") ==
            fullName (p.getD 3 "") (p.getD 4 ""))).getLast? with
        | some row =>
          v.Committee = (toLower (row.getD 2 "") == "true") ∧ v.Grade = toLower (row.getD 3 "")
        | none => v.Committee = false ∧ v.Grade = "c" := by
  obtain ⟨m, hm, _, hk, hv⟩ := mergeRoster_spec toLower regs grads hr hg
  refine ⟨m, hm, ?_⟩
  intro p hp
  obtain ⟨v, hget⟩ := mapGet_of_mem m _ ((hk _).mpr (List.mem_map_of_mem registrantKey hp))
  refine ⟨v, hget, ?_⟩
  have := hv _ v hget
  simp only [expectedStatus, registrantKey, gradingKey] at this
  revert this
  cases (grads.filter (fun r => fullName (r.getD 0 "") (r.getD 1 "") ==
      fullName (p.getD 3 "") (p.getD 4 ""))).getLast? with
  | none => intro h; simpa using h
  | some row => intro h; simpa using h

/-! ## Instances on the sample rosters -/

/-- Instance of C1: four participants over three teams. -/
theorem distribute_conservation_witness :
    1 ≤ 3 ∧ ∃ teams, distributeParticipants rosterTwoSeedsTwoA 3 = .ok teams ∧
      teams.length = 3 ∧ teams.flatten.Perm rosterTwoSeedsTwoA :=
  ⟨by decide, distribute_conservation rosterTwoSeedsTwoA 3 (by decide)⟩

/-- Instance of C2: two committee members, two teams. -/
theorem distribute_committee_in_every_team_witness :
    1 ≤ 2 ∧ 2 ≤ committeeCount rosterTwoSeedsTwoA ∧
      ∃ teams, distributeParticipants rosterTwoSeedsTwoA 2 = .ok teams ∧ teams.length = 2 ∧
        ∀ t ∈ teams, ∃ x ∈ t, x.Committee = true :=
  ⟨by decide, by decide,
    distribute_committee_in_every_team rosterTwoSeedsTwoA 2 (by decide) (by decide)⟩

/-- Instance of amended C3: four graded participants, two teams. -/
theorem distribute_capacity_graded_witness :
    1 ≤ 2 ∧
    (∀ x ∈ rosterOneSeedThreeA, x.Grade = "a" ∨ x.Grade = "b" ∨ x.Grade = "c") ∧
    rosterOneSeedThreeA.length ≤ 2 * membersPerTeam ∧
      ∃ teams, distributeParticipants rosterOneSeedThreeA 2 = .ok teams ∧ teams.length = 2 ∧
        ∀ t ∈ teams, t.length ≤ membersPerTeam :=
  ⟨by decide, by decide, by decide,
    distribute_capacity_graded rosterOneSeedThreeA 2 (by decide) (by decide) (by decide)⟩

/-- Instance of amended C4 on the roster of twenty-four over four teams, for grade "a": teams 0
and 1 are seeded with committee members of grade "a", teams 2 and 3 with committee members of
grade "b", and six participants of grade "a" are left for phase 2. -/
theorem distribute_grade_spread_witness :
    1 ≤ 4 ∧ ("a" = "a" ∨ "a" = "b" ∨ "a" = "c") ∧ 4 < gradeCount "a" rosterTwentyFour ∧
    (∀ j, j < 4 →
      gradeCount "a" ((seedCommittee (List.replicate 4 []) rosterTwentyFour).1.getD j []) = 0 →
      j < gradeCount "a" (seedCommittee (List.replicate 4 []) rosterTwentyFour).2) ∧
      ∃ teams, distributeParticipants rosterTwentyFour 4 = .ok teams ∧
        ¬ ∃ X ∈ teams, ∃ Z ∈ teams,
          2 ≤ gradeCount "a" X ∧ gradeCount "a" Z = 0 ∧ Z.length < membersPerTeam :=
  ⟨by decide, by decide, by decide, by decide,
    distribute_grade_spread rosterTwentyFour 4 "a" (by decide) (by decide) (by decide)
      (by decide)⟩

/-- Instance of C6: one registrant, one grading row for her and one for a stranger. -/
theorem mergeRoster_keys_witness :
    (∀ p ∈ [["7", "x", "y", "Jane", "Doe"]], 5 ≤ p.length) ∧
    (∀ r ∈ [["Jane", "Doe", "true", "A"], ["John", "Roe", "false", "B"]], 4 ≤ r.length) ∧
      ∃ m, mergeRoster asciiLower [["7", "x", "y", "Jane", "Doe"]]
          [["Jane", "Doe", "true", "A"], ["John", "Roe", "false", "B"]] = .ok m ∧
        (mapKeys m).Nodup ∧
        (∀ p ∈ [["7", "x", "y", "Jane", "Doe"]],
          fullName (p.getD 3 "") (p.getD 4 "") ∈ mapKeys m) ∧
        (∀ k ∈ mapKeys m, ∃ p ∈ [["7", "x", "y", "Jane", "Doe"]],
          k = fullName (p.getD 3 "") (p.getD 4 "")) :=
  ⟨by decide, by decide, mergeRoster_keys asciiLower _ _ (by decide) (by decide)⟩

/-- Instance of C7, the example of the spec: registrant "Jane Doe" with the grading row
("Jane", "Doe", "true", "A") is merged to committee = true, grade = "a". -/
theorem mergeRoster_precedence_witness :
    (∀ p ∈ [["7", "x", "y", "Jane", "Doe"]], 5 ≤ p.length) ∧
    (∀ r ∈ [["Jane", "Doe", "true", "A"]], 4 ≤ r.length) ∧
    mergeRoster asciiLower [["7", "x", "y", "Jane", "Doe"]] [["Jane", "Doe", "true", "A"]] =
      .ok [("Jane Doe", ⟨"Jane", "Doe", true, "a"⟩)] ∧
    ∃ m, mergeRoster asciiLower [["7", "x", "y", "Jane", "Doe"]]
        [["Jane", "Doe", "true", "A"]] = .ok m ∧
      ∀ p ∈ [["7", "x", "y", "Jane", "Doe"]],
        ∃ v, mapGet m (fullName (p.getD 3 "") (p.getD 4 "")) = some v ∧
          match ([["Jane", "Doe", "true", "A"]].filter
            (fun r => fullName (r.getD 0 "") (r.getD 1 "") ==
              fullName (p.getD 3 "") (p.getD 4 ""))).getLast? with
          | some row =>
            v.Committee = (asciiLower (row.getD 2 "") == "true") ∧
              v.Grade = asciiLower (row.getD 3 "")
          | none => v.Committee = false ∧ v.Grade = "c" :=
  ⟨by decide, by decide, rfl, mergeRoster_precedence asciiLower _ _ (by decide) (by decide)⟩

/-- Instance of C8: the sorted roster of twenty-four. -/
theorem distribute_twenty_four_witness :
    rosterTwentyFour.length = 24 ∧ committeeCount rosterTwentyFour = 6 ∧
    gradeCount "a" rosterTwentyFour = 8 ∧ gradeCount "b" rosterTwentyFour = 8 ∧
    gradeCount "c" rosterTwentyFour = 8 ∧ selectTeamCount rosterTwentyFour.length = 4 ∧
      ∃ teams, distributeParticipants rosterTwentyFour 4 = .ok teams ∧ teams.length = 4 ∧
        ∀ t ∈ teams, t.length = 6 :=
  ⟨rfl, rfl, rfl, rfl, rfl, distribute_twenty_four rosterTwentyFour rfl rfl rfl rfl rfl⟩

/-- Instance of C9: one committee member, two teams. -/
theorem distribute_committee_order_witness :
    committeeCount rosterOneSeedThreeA < 2 ∧
      ∃ teams, distributeParticipants rosterOneSeedThreeA 2 = .ok teams ∧ teams.length = 2 ∧
        (∀ i, i < committeeCount rosterOneSeedThreeA → ∃ t c, teams[i]? = some t ∧
          (rosterOneSeedThreeA.filter (fun q => q.Committee))[i]? = some c ∧
          t.head? = some c ∧ t.filter (fun q => q.Committee) = [c]) ∧
        (∀ i t, committeeCount rosterOneSeedThreeA ≤ i → teams[i]? = some t →
          t.filter (fun q => q.Committee) = []) :=
  ⟨by decide, distribute_committee_order rosterOneSeedThreeA 2 (by decide)⟩

/-- Instance of C10: twenty-four graded participants over three teams, eight per team. -/
theorem distribute_overflow_sizes_witness :
    1 ≤ 3 ∧
    (∀ x ∈ rosterTwentyFour, x.Grade = "a" ∨ x.Grade = "b" ∨ x.Grade = "c") ∧
    3 * membersPerTeam ≤ rosterTwentyFour.length ∧
      ∃ teams, distributeParticipants rosterTwentyFour 3 = .ok teams ∧ teams.length = 3 ∧
        ∀ (i : Nat) (hi : i < teams.length), teams[i].length =
          membersPerTeam + (rosterTwentyFour.length - 5 * 3) / 3 +
            (if i < (rosterTwentyFour.length - 5 * 3) % 3 then 1 else 0) :=
  ⟨by decide, by decide, by decide,
    distribute_overflow_sizes rosterTwentyFour 3 (by decide) (by decide) (by decide)⟩

/-! ## C14: a roster that fits leaves nothing to the overflow rotation -/

/-- Proof rule for phases 1 and 2 alone, for any team count: the grade fill ends normally in a
state `s2` with `T` teams, none above capacity, that holds every participant once and satisfies
any invariant `I` that holds after seeding and is kept by every grade pass; at that point either
all teams are at capacity or nobody of grade "a", "b" or "c" is left. -/
theorem phase2_rule (R : List Person) (T : Nat) (I : List Team → List Person → Prop)
    (h0 : I (seedCommittee (List.replicate T []) R).1 (seedCommittee (List.replicate T []) R).2)
    (hstep : ∀ g ∈ grades, ∀ teams ps, ps ≠ [] → teams.length = T → ps.Sublist R →
      I teams ps → I (fillRound g teams ps false).1 (fillRound g teams ps false).2.1) :
    ∃ s2 : List Team × List Person,
      fillGrades grades (seedCommittee (List.replicate T []) R).1
        (seedCommittee (List.replicate T []) R).2 = .ok s2 ∧
      distributeParticipants R T = overflow T s2.1 s2.2 0 ∧
      I s2.1 s2.2 ∧ s2.1.length = T ∧ (s2.1.flatten ++ s2.2).Perm R ∧ s2.2.Sublist R ∧
      (∀ t ∈ s2.1, t.length ≤ membersPerTeam) ∧
      ((∀ t ∈ s2.1, membersPerTeam ≤ t.length) ∨ ∀ x ∈ s2.2, ∀ g ∈ grades, x.Grade ≠ g) := by
  let J : List Team → List Person → Prop := fun ts qs =>
    I ts qs ∧ ts.length = T ∧ (ts.flatten ++ qs).Perm R ∧ qs.Sublist R ∧
      ∀ t ∈ ts, t.length ≤ membersPerTeam
  have hJ0 : J (seedCommittee (List.replicate T []) R).1
      (seedCommittee (List.replicate T []) R).2 := by
    refine ⟨h0, ?_, ?_, seedCommittee_sublist _ _, ?_⟩
    · rw [(seedCommittee_grows _ _).length_eq]; simp
    · simpa using seedCommittee_perm (List.replicate T []) R
    · intro t ht
      have := seedCommittee_cap 0 (List.replicate T []) R
        (fun t ht => by simp [List.eq_of_mem_replicate ht]) t ht
      simp only [membersPerTeam]
      omega
  have hJstep : ∀ g ∈ grades, ∀ ts qs, qs ≠ [] → J ts qs →
      J (fillRound g ts qs false).1 (fillRound g ts qs false).2.1 := by
    intro g hg ts qs hne hJ
    obtain ⟨h1, h2, h3, h4, h5⟩ := hJ
    refine ⟨hstep g hg ts qs hne h2 h4 h1, ?_, ?_, ?_, ?_⟩
    · rw [(fillRound_grows g ts qs false).length_eq]; exact h2
    · exact (fillRound_perm g ts qs false).trans h3
    · exact (fillRound_sublist g ts qs false).trans h4
    · exact fillRound_cap g ts qs false h5
  obtain ⟨s2, hs2, hJ2, hex⟩ := fillGrades_rule grades J hJstep _ _ hJ0
  obtain ⟨h1, h2, h3, h4, h5⟩ := hJ2
  refine ⟨s2, hs2, ?_, h1, h2, h3, h4, h5, hex⟩
  simp only [distributeParticipants, hs2]

/-- The state after phase 2 for a roster graded "a", "b", "c" that fits the total capacity: the
roster is used up. -/
theorem phase2_fits (R : List Person) (T : Nat)
    (habc : ∀ x ∈ R, x.Grade ∈ grades) (hN : R.length ≤ T * membersPerTeam) :
    ∃ s2 : List Team × List Person,
      fillGrades grades (seedCommittee (List.replicate T []) R).1
        (seedCommittee (List.replicate T []) R).2 = .ok s2 ∧
      s2.2 = [] ∧ distributeParticipants R T = .ok s2.1 ∧ s2.1.length = T ∧
      ∀ t ∈ s2.1, t.length ≤ membersPerTeam := by
  obtain ⟨s2, hs2, hd, _, hlen, hperm, hsub, hcap, hex⟩ :=
    phase2_rule R T (fun _ _ => True) trivial (fun _ _ _ _ _ _ _ _ => trivial)
  have hnil : s2.2 = [] := by
    rcases hex with hfull | hno
    · have h1 := flatten_length_eq membersPerTeam s2.1
        (fun t ht => Nat.le_antisymm (hcap t ht) (hfull t ht))
      have h2 := hperm.length_eq
      simp only [List.length_append] at h2
      rw [hlen, Nat.mul_comm] at h1
      exact List.length_eq_zero.mp (by omega)
    · apply List.eq_nil_iff_forall_not_mem.mpr
      intro x hx
      exact hno x hx x.Grade (habc x (hsub.subset hx)) rfl
  refine ⟨s2, hs2, hnil, ?_, hlen, hcap⟩
  rw [hd, hnil]
  rfl

/-- C14. For every roster `R` whose grades are all among "a", "b", "c" and every team count
`T ≥ 1` with `len(R) ≤ T * membersPerTeam`, the overflow phase receives no participants (the
roster left by phase 2 is empty, so the teams returned are those phase 2 built) and no team
returned by `distributeParticipants R T` has more than `membersPerTeam` members. -/
theorem distribute_no_overflow (R : List Person) (T : Nat) (_hT : 1 ≤ T)
    (habc : ∀ x ∈ R, x.Grade = "a" ∨ x.Grade = "b" ∨ x.Grade = "c")
    (hN : R.length ≤ T * membersPerTeam) :
    ∃ s2 : List Team × List Person,
      fillGrades grades (seedCommittee (List.replicate T []) R).1
        (seedCommittee (List.replicate T []) R).2 = .ok s2 ∧
      s2.2 = [] ∧ distributeParticipants R T = .ok s2.1 ∧ s2.1.length = T ∧
      ∀ t ∈ s2.1, t.length ≤ membersPerTeam :=
  phase2_fits R T (fun x hx => by simpa [grades] using habc x hx) hN

/-! ## C12: the selected team count is safe -/

theorem selectTeamCount_eq_zero_iff (n : Nat) : selectTeamCount n = 0 ↔ n = 0 := by
  constructor
  · intro h
    unfold selectTeamCount at h
    simp only [membersPerTeam] at h
    split_ifs at h
    omega
  · rintro rfl
    decide

/-- Where the model does fault: a participant and no team is the index panic. -/
theorem distribute_zero_teams_faults (p : Person) (R : List Person) :
    distributeParticipants (p :: R) 0 = .error .indexOutOfRange := by
  obtain ⟨s2, _, hd, _, hlen, hperm, _, _, _⟩ :=
    phase2_rule (p :: R) 0 (fun _ _ => True) trivial (fun _ _ _ _ _ _ _ _ => trivial)
  have hnil : s2.1 = [] := List.length_eq_zero.mp hlen
  have hne : s2.2 ≠ [] := by
    intro h
    have := hperm.length_eq
    simp [hnil, h] at this
  rw [hd, hnil]
  cases hq : s2.2 with
  | nil => exact absurd hq hne
  | cons q qs => simp [overflow]

/-- C12. For every roster `R` (the empty one included), `distributeParticipants R T` with `T` the
team count that `main` selects for `len(R)` returns teams (so it reaches neither an
out-of-range team index nor a remainder by zero): the selected count is 0 exactly when
`len(R) = 0`, and in that case the roster handed to the overflow loop is empty, the loop does
not execute and the result is an empty list of teams. -/
theorem distribute_selected_count_safe (R : List Person) :
    (selectTeamCount R.length = 0 ↔ R.length = 0) ∧
    (∃ teams, distributeParticipants R (selectTeamCount R.length) = .ok teams ∧
      teams.length = selectTeamCount R.length) ∧
    fillGrades grades (seedCommittee (List.replicate (selectTeamCount 0) []) []).1
      (seedCommittee (List.replicate (selectTeamCount 0) []) []).2 = .ok ([], []) ∧
    distributeParticipants [] (selectTeamCount 0) = .ok [] := by
  refine ⟨selectTeamCount_eq_zero_iff _, ?_, rfl, rfl⟩
  by_cases h0 : R.length = 0
  · have hR : R = [] := List.length_eq_zero.mp h0
    subst hR
    exact ⟨[], rfl, rfl⟩
  · have hT : 0 < selectTeamCount R.length :=
      Nat.pos_of_ne_zero (fun h => h0 ((selectTeamCount_eq_zero_iff _).mp h))
    obtain ⟨_, teams, hd, _, _, _, _, _, _, _, _, _, hlen⟩ :=
      distribute_rule R (selectTeamCount R.length) hT (fun _ _ => True) trivial
        (fun _ _ _ _ _ _ _ _ => trivial)
    exact ⟨teams, hd, hlen⟩

/-! ## C15: which selected team counts leave a team above capacity -/

theorem selectTeamCount_fits_iff (n : Nat) :
    n ≤ selectTeamCount n * membersPerTeam ↔ n ≤ 23 ∨ n = 30 := by
  unfold selectTeamCount
  simp only [membersPerTeam]
  constructor
  · intro h
    split_ifs at h <;> omega
  · intro h
    split_ifs <;> omega

theorem selectTeamCount_big (n : Nat) (h : 24 ≤ n) :
    selectTeamCount n = 4 ∧ n ≤ 29 ∨ selectTeamCount n = 6 ∧ 30 ≤ n := by
  unfold selectTeamCount
  split_ifs <;> omega

/-- C15. For every roster `R` whose grades are all among "a", "b", "c", with `T` the team count
`main` selects for `N = len(R)`: some team of `distributeParticipants R T` has more than
`membersPerTeam` members if and only if `24 ≤ N ≤ 29` or `N ≥ 31`; equivalently,
`N ≤ T * membersPerTeam` holds exactly when `N ≤ 23` or `N = 30`. -/
theorem distribute_selected_overfull (R : List Person)
    (habc : ∀ x ∈ R, x.Grade = "a" ∨ x.Grade = "b" ∨ x.Grade = "c") :
    ∃ teams, distributeParticipants R (selectTeamCount R.length) = .ok teams ∧
      ((∃ t ∈ teams, membersPerTeam < t.length) ↔
        (24 ≤ R.length ∧ R.length ≤ 29) ∨ 31 ≤ R.length) ∧
      (R.length ≤ selectTeamCount R.length * membersPerTeam ↔
        R.length ≤ 23 ∨ R.length = 30) := by
  have hgr : ∀ x ∈ R, x.Grade ∈ grades := fun x hx => by simpa [grades] using habc x hx
  have hiff := selectTeamCount_fits_iff R.length
  by_cases hfit : R.length ≤ selectTeamCount R.length * membersPerTeam
  · obtain ⟨s2, _, _, hd, _, hcap⟩ := phase2_fits R (selectTeamCount R.length) hgr hfit
    refine ⟨s2.1, hd, ?_, hiff⟩
    have hN := hiff.mp hfit
    constructor
    · rintro ⟨t, ht, hlt⟩
      have := hcap t ht
      omega
    · intro h
      omega
  · have hN : ¬ (R.length ≤ 23 ∨ R.length = 30) := fun h => hfit (hiff.mpr h)
    have hbig := selectTeamCount_big R.length (by omega)
    have hT : 0 < selectTeamCount R.length := by omega
    obtain ⟨teams, hd, hlen, hsz⟩ :=
      distribute_sizes R (selectTeamCount R.length) hT hgr (by omega)
    refine ⟨teams, hd, ?_, hiff⟩
    constructor
    · intro _
      omega
    · intro _
      have h0 := hsz 0 hT
      have hmem : teams.getD 0 [] ∈ teams := by
        rw [List.getD_eq_getElem _ _ (by omega)]
        exact List.getElem_mem _
      refine ⟨_, hmem, ?_⟩
      rw [h0]
      simp only [membersPerTeam] at hfit ⊢
      rcases hbig with ⟨h4, _⟩ | ⟨h6, _⟩
      · rw [h4] at hfit ⊢
        split_ifs <;> omega
      · rw [h6] at hfit ⊢
        split_ifs <;> omega

/-! ## C13: the sort comparator -/

theorem less_of_grade_eq (p q : Person) (h : p.Grade = q.Grade) :
    less p q = (p.Committee && !q.Committee) := by
  simp [less, h]

theorem less_of_grade_ne (p q : Person) (h : p.Grade ≠ q.Grade) :
    less p q = decide (p.Grade < q.Grade) := by
  simp [less, h]

/-- Two participants are unordered by `less` exactly when they agree in grade and committee
flag. -/
theorem less_incomparable_iff (p q : Person) :
    (less p q = false ∧ less q p = false) ↔
      (p.Grade = q.Grade ∧ p.Committee = q.Committee) := by
  by_cases h : p.Grade = q.Grade
  · rw [less_of_grade_eq p q h, less_of_grade_eq q p h.symm]
    cases p.Committee <;> cases q.Committee <;> simp [h]
  · rw [less_of_grade_ne p q h, less_of_grade_ne q p (Ne.symm h)]
    simp only [decide_eq_false_iff_not, h, false_and, iff_false, not_and, not_not]
    intro h1
    rcases lt_trichotomy p.Grade q.Grade with h2 | h2 | h2
    · exact absurd h2 h1
    · exact absurd h2 h
    · exact h2

/-- C13. The comparator used to sort the roster before distribution is a strict weak ordering:
irreflexive, transitive, with transitive incomparability; it orders participants by grade
ascending and, within equal grade, committee members before non-committee members. -/
theorem less_strict_weak_order :
    (∀ p, less p p = false) ∧
    (∀ p q r, less p q = true → less q r = true → less p r = true) ∧
    (∀ p q r, (less p q = false ∧ less q p = false) → (less q r = false ∧ less r q = false) →
      (less p r = false ∧ less r p = false)) ∧
    (∀ p q, p.Grade < q.Grade → less p q = true ∧ less q p = false) ∧
    (∀ p q, p.Grade = q.Grade →
      (less p q = true ↔ p.Committee = true ∧ q.Committee = false)) := by
  refine ⟨?_, ?_, ?_, ?_, ?_⟩
  · intro p
    rw [less_of_grade_eq p p rfl]
    cases p.Committee <;> rfl
  · intro p q r hpq hqr
    by_cases h1 : p.Grade = q.Grade
    · by_cases h2 : q.Grade = r.Grade
      · rw [less_of_grade_eq p q h1] at hpq
        rw [less_of_grade_eq q r h2] at hqr
        rw [less_of_grade_eq p r (h1.trans h2)]
        revert hpq hqr
        cases p.Committee <;> cases q.Committee <;> cases r.Committee <;> simp
      · rw [less_of_grade_ne q r h2] at hqr
        rw [less_of_grade_ne p r (by rw [h1]; exact h2), h1]
        exact hqr
    · rw [less_of_grade_ne p q h1] at hpq
      have hlt1 : p.Grade < q.Grade := of_decide_eq_true hpq
      by_cases h2 : q.Grade = r.Grade
      · rw [less_of_grade_ne p r (by rw [← h2]; exact h1), ← h2]
        exact hpq
      · rw [less_of_grade_ne q r h2] at hqr
        have hlt2 : q.Grade < r.Grade := of_decide_eq_true hqr
        have hlt : p.Grade < r.Grade := lt_trans hlt1 hlt2
        rw [less_of_grade_ne p r (ne_of_lt hlt)]
        exact decide_eq_true hlt
  · intro p q r hpq hqr
    rw [less_incomparable_iff] at hpq hqr ⊢
    exact ⟨hpq.1.trans hqr.1, hpq.2.trans hqr.2⟩
  · intro p q hlt
    rw [less_of_grade_ne p q (ne_of_lt hlt), less_of_grade_ne q p (ne_of_gt hlt)]
    exact ⟨decide_eq_true hlt, decide_eq_false (lt_asymm hlt)⟩
  · intro p q h
    rw [less_of_grade_eq p q h]
    cases p.Committee <;> cases q.Committee <;> simp

/-! ## C11: a uniform roster is dealt round-robin -/

theorem seedCommittee_no_committee (teams : List Team) (ps : List Person)
    (h : ∀ x ∈ ps, x.Committee = false) : seedCommittee teams ps = (teams, ps) := by
  induction teams with
  | nil => rfl
  | cons t ts ih =>
    have hp : pickFirst (fun p => p.Committee) ps = none := pickFirst_none_of h
    simp only [seedCommittee, hp, ih]

/-- A pass over teams that are all at capacity changes nothing. -/
theorem fillRound_all_full (g : String) (teams : List Team) (ps : List Person) (pl : Bool)
    (h : ∀ t ∈ teams, membersPerTeam ≤ t.length) :
    fillRound g teams ps pl = (teams, ps, pl) := by
  induction teams with
  | nil => rfl
  | cons t ts ih =>
    have ht : t.length ≥ membersPerTeam := h t (List.mem_cons_self _ _)
    simp only [fillRound, ht, if_true, ih (fun x hx => h x (List.mem_cons_of_mem _ hx))]

theorem pickFirst_head (pred : Person → Bool) (p : Person) (ps : List Person)
    (h : pred p = true) : pickFirst pred (p :: ps) = some (p, ps) := by
  rw [pickFirst_cons, if_pos h]

theorem appendAt_prefix (pre : List Team) (t : Team) (ts : List Team) (p : Person) :
    appendAt (pre ++ t :: ts) pre.length p = pre ++ (t ++ [p]) :: ts := by
  induction pre with
  | nil => rfl
  | cons q pre ih => simp [appendAt, ih]

theorem appendAt_getD_val (teams : List Team) (k i : Nat) (p : Person) :
    (appendAt teams k p).getD i [] =
      if i = k ∧ k < teams.length then teams.getD i [] ++ [p] else teams.getD i [] := by
  induction teams generalizing k i with
  | nil => simp [appendAt]
  | cons t ts ih =>
    cases k with
    | zero =>
      cases i with
      | zero => simp [appendAt]
      | succ i => simp [appendAt]
    | succ k =>
      cases i with
      | zero => simp [appendAt]
      | succ i => simpa [appendAt] using ih k i

/-- One pass for the grade everybody has, over teams below capacity, is a stretch of the
rotation: the rotation started on the state before the pass, at the index of the first team of
the pass, and the rotation started at team 0 on the state after the pass give the same teams. -/
theorem fillRound_deal (g : String) (T : Nat) (hT : 0 < T) :
    ∀ (ts pre : List Team) (ps : List Person) (pl : Bool),
      (∀ t ∈ ts, t.length < membersPerTeam) → (∀ x ∈ ps, x.Grade = g) →
      pre.length + ts.length = T →
      overflow T (pre ++ ts) ps (pre.length % T) =
        overflow T (pre ++ (fillRound g ts ps pl).1) (fillRound g ts ps pl).2.1 0 := by
  intro ts
  induction ts with
  | nil =>
    intro pre ps pl _ _ hlen
    simp only [List.length_nil, Nat.add_zero] at hlen
    simp only [fillRound, hlen, Nat.mod_self]
  | cons t ts ih =>
    intro pre ps pl hlt hg hlen
    simp only [List.length_cons] at hlen
    have ht : ¬ t.length ≥ membersPerTeam := Nat.not_le.mpr (hlt t (List.mem_cons_self _ _))
    have hpre : pre.length % T = pre.length := Nat.mod_eq_of_lt (by omega)
    cases ps with
    | nil => simp [fillRound, ht, pickFirst_nil, overflow]
    | cons p ps' =>
      have hpg : (fun q : Person => q.Grade == g) p = true := by
        simpa using hg p (List.mem_cons_self _ _)
      have hpick := pickFirst_head (fun q : Person => q.Grade == g) p ps' hpg
      have hidx : pre.length < (pre ++ t :: ts).length := by
        simp only [List.length_append, List.length_cons]
        omega
      have hstep : overflow T (pre ++ t :: ts) (p :: ps') (pre.length % T) =
          overflow T (pre ++ (t ++ [p]) :: ts) ps' ((pre.length + 1) % T) := by
        rw [hpre]
        simp only [overflow, hidx, if_true, Nat.pos_iff_ne_zero.mp hT, if_false,
          appendAt_prefix]
      rw [hstep]
      by_cases he : ps' = []
      · subst he
        simp [fillRound, ht, hpick, overflow]
      · have hrec := ih (pre ++ [t ++ [p]]) ps' true
          (fun x hx => hlt x (List.mem_cons_of_mem _ hx))
          (fun x hx => hg x (List.mem_cons_of_mem _ hx))
          (by simp only [List.length_append, List.length_singleton]; omega)
        simp only [List.length_append, List.length_singleton, List.append_assoc,
          List.singleton_append] at hrec
        have hne : ¬ ps'.length = 0 := fun h => he (List.length_eq_zero.mp h)
        simp only [fillRound, ht, if_false, hpick, hne]
        exact hrec

/-- After such a pass the roster is used up or every team has one member more. -/
theorem fillRound_uniform (g : String) (c : Nat) (hc : c < membersPerTeam) :
    ∀ (ts : List Team) (ps : List Person) (pl : Bool),
      (∀ t ∈ ts, t.length = c) → (∀ x ∈ ps, x.Grade = g) →
      (fillRound g ts ps pl).2.1 = [] ∨ ∀ t ∈ (fillRound g ts ps pl).1, t.length = c + 1 := by
  intro ts
  induction ts with
  | nil =>
    intro ps pl _ _
    exact Or.inr (by simp [fillRound])
  | cons t ts ih =>
    intro ps pl hlen hg
    have htc : t.length = c := hlen t (List.mem_cons_self _ _)
    have ht : ¬ t.length ≥ membersPerTeam := by omega
    cases ps with
    | nil => exact Or.inl (by simp [fillRound, ht, pickFirst_nil])
    | cons p ps' =>
      have hpg : (fun q : Person => q.Grade == g) p = true := by
        simpa using hg p (List.mem_cons_self _ _)
      have hpick := pickFirst_head (fun q : Person => q.Grade == g) p ps' hpg
      by_cases he : ps' = []
      · subst he
        exact Or.inl (by simp [fillRound, ht, hpick])
      · have hne : ¬ ps'.length = 0 := fun h => he (List.length_eq_zero.mp h)
        simp only [fillRound, ht, if_false, hpick, hne]
        rcases ih ps' true (fun x hx => hlen x (List.mem_cons_of_mem _ hx))
          (fun x hx => hg x (List.mem_cons_of_mem _ hx)) with h | h
        · exact Or.inl h
        · right
          intro x hx
          rcases List.mem_cons.mp hx with rfl | hx
          · simp [htc]
          · exact h x hx

/-- What the rotation appends to each team: started at team `k`, team `i` receives the roster
members at the positions `off, off + T, off + 2T, ...`, where `off` is the number of steps from
`k` round to `i`. -/
theorem overflow_deal (T : Nat) (hT : 0 < T) :
    ∀ (ps : List Person) (teams r : List Team) (k : Nat), teams.length = T → k < T →
      overflow T teams ps k = .ok r → ∀ i, i < T →
        ∃ ex, r.getD i [] = teams.getD i [] ++ ex ∧
          ∀ j, ex[j]? = ps[(if k ≤ i then i - k else T + i - k) + j * T]? := by
  intro ps
  induction ps with
  | nil =>
    intro teams r k _ _ h i _
    simp only [overflow, Except.ok.injEq] at h
    subst h
    exact ⟨[], by simp, by simp⟩
  | cons p rest ih =>
    intro teams r k hlen hk h i hi
    have hk' : k < teams.length := by omega
    simp only [overflow, hk', if_true, Nat.pos_iff_ne_zero.mp hT, if_false] at h
    obtain ⟨ex, hex, hj⟩ := ih (appendAt teams k p) r ((k + 1) % T)
      (by rw [appendAt_length]; exact hlen) (Nat.mod_lt _ hT) h i hi
    rw [appendAt_getD_val] at hex
    have hnext : (k + 1) % T = if k + 1 < T then k + 1 else 0 := by
      split_ifs with hw
      · exact Nat.mod_eq_of_lt hw
      · have : k + 1 = T := by omega
        rw [this, Nat.mod_self]
    rw [hnext] at hj
    by_cases hik : i = k
    · subst hik
      refine ⟨p :: ex, by simpa [hk'] using hex, ?_⟩
      intro j
      cases j with
      | zero => simp
      | succ j =>
        have e : (if i ≤ i then i - i else T + i - i) + (j + 1) * T =
            ((if (if i + 1 < T then i + 1 else 0) ≤ i then i - (if i + 1 < T then i + 1 else 0)
              else T + i - (if i + 1 < T then i + 1 else 0)) + j * T) + 1 := by
          rw [Nat.add_mul]
          split_ifs <;> omega
        rw [e, List.getElem?_cons_succ, List.getElem?_cons_succ]
        exact hj j
    · refine ⟨ex, by simpa [hik] using hex, ?_⟩
      intro j
      have e : (if k ≤ i then i - k else T + i - k) + j * T =
          ((if (if k + 1 < T then k + 1 else 0) ≤ i then i - (if k + 1 < T then k + 1 else 0)
            else T + i - (if k + 1 < T then k + 1 else 0)) + j * T) + 1 := by
        split_ifs <;> omega
      rw [e, List.getElem?_cons_succ]
      exact hj j

/-- A roster without committee members whose participants all have one grade is distributed
exactly as the overflow rotation alone would deal it over empty teams. -/
theorem distribute_uniform (R : List Person) (T : Nat) (hT : 0 < T) (g : String)
    (hnc : ∀ x ∈ R, x.Committee = false) (hg : ∀ x ∈ R, x.Grade = g) :
    distributeParticipants R T = overflow T (List.replicate T []) R 0 := by
  have hseed := seedCommittee_no_committee (List.replicate T []) R hnc
  obtain ⟨s2, _, hd, hI, _⟩ :=
    phase2_rule R T
      (fun ts qs => overflow T ts qs 0 = overflow T (List.replicate T []) R 0 ∧
        ((∃ c, ∀ t ∈ ts, t.length = c) ∨ qs = []))
      (by
        rw [hseed]
        exact ⟨rfl, Or.inl ⟨0, fun t ht => by simp [List.eq_of_mem_replicate ht]⟩⟩)
      (by
        intro g' _ ts qs hne hlen hsub hI
        obtain ⟨heq, huni⟩ := hI
        have hgq : ∀ x ∈ qs, x.Grade = g := fun x hx => hg x (hsub.subset hx)
        by_cases hgg : g' = g
        · subst hgg
          rcases huni with ⟨c, hc⟩ | hnil
          · by_cases hfull : membersPerTeam ≤ c
            · rw [fillRound_all_full g' ts qs false (fun t ht => by rw [hc t ht]; exact hfull)]
              exact ⟨heq, Or.inl ⟨c, hc⟩⟩
            · have hlt : c < membersPerTeam := Nat.lt_of_not_le hfull
              have hdeal := fillRound_deal g' T hT ts [] qs false
                (fun t ht => by rw [hc t ht]; exact hlt) hgq (by simpa using hlen)
              simp only [List.length_nil, Nat.zero_mod, List.nil_append] at hdeal
              refine ⟨hdeal.symm.trans heq, ?_⟩
              rcases fillRound_uniform g' c hlt ts qs false hc hgq with h | h
              · exact Or.inr h
              · exact Or.inl ⟨c + 1, h⟩
          · exact absurd hnil hne
        · rw [fillRound_noop g' ts qs false (fun x hx => by rw [hgq x hx]; exact Ne.symm hgg)]
          exact ⟨heq, huni⟩)
  rw [hd]
  exact hI.1

/-- C11. For every roster `R` that has no committee members and in which all participants share
one and the same grade, and every team count `T ≥ 1`: `distributeParticipants R T` places the
participant at roster index `k` in team `k mod T` at position `k div T`; team `i` is exactly
`[R[i], R[i+T], R[i+2T], ...]`. -/
theorem distribute_round_robin (R : List Person) (T : Nat) (g : String) (hT : 1 ≤ T)
    (hnc : ∀ x ∈ R, x.Committee = false) (hg : ∀ x ∈ R, x.Grade = g) :
    ∃ teams, distributeParticipants R T = .ok teams ∧ teams.length = T ∧
      (∀ i, i < T → ∀ j, (teams.getD i [])[j]? = R[i + j * T]?) ∧
      (∀ k, k < R.length → (teams.getD (k % T) [])[k / T]? = R[k]?) := by
  have hd := distribute_uniform R T hT g hnc hg
  obtain ⟨teams, hov, hgr, _⟩ :=
    overflow_rule T hT R (List.replicate T []) 0 (by simp) hT
  have hlen : teams.length = T := by rw [hgr.length_eq]; simp
  have hteam : ∀ i, i < T → ∀ j, (teams.getD i [])[j]? = R[i + j * T]? := by
    intro i hi j
    obtain ⟨ex, hex, hj⟩ :=
      overflow_deal T hT R (List.replicate T []) teams 0 (by simp) hT hov i hi
    have hempty : (List.replicate T ([] : Team)).getD i [] = [] := by
      rw [List.getD_eq_getElem _ _ (by simpa using hi)]
      simp
    rw [hex, hempty, List.nil_append, hj j]
    simp
  refine ⟨teams, hd.trans hov, hlen, hteam, ?_⟩
  intro k _
  have := hteam (k % T) (Nat.mod_lt _ hT) (k / T)
  rw [Nat.mod_add_div'] at this
  exact this

/-! ## Further instances on the sample rosters -/

/-- Instance of C11: seven participants of grade "b" over three teams. -/
theorem distribute_round_robin_witness :
    1 ≤ 3 ∧ (∀ x ∈ rosterSevenB, x.Committee = false) ∧ (∀ x ∈ rosterSevenB, x.Grade = "b") ∧
      ∃ teams, distributeParticipants rosterSevenB 3 = .ok teams ∧ teams.length = 3 ∧
        (∀ i, i < 3 → ∀ j, (teams.getD i [])[j]? = rosterSevenB[i + j * 3]?) ∧
        (∀ k, k < rosterSevenB.length →
          (teams.getD (k % 3) [])[k / 3]? = rosterSevenB[k]?) :=
  ⟨by decide, by decide, by decide,
    distribute_round_robin rosterSevenB 3 "b" (by decide) (by decide) (by decide)⟩

/-- Instance of C14: four graded participants, two teams. -/
theorem distribute_no_overflow_witness :
    1 ≤ 2 ∧
    (∀ x ∈ rosterOneSeedThreeA, x.Grade = "a" ∨ x.Grade = "b" ∨ x.Grade = "c") ∧
    rosterOneSeedThreeA.length ≤ 2 * membersPerTeam ∧
      ∃ s2 : List Team × List Person,
        fillGrades grades (seedCommittee (List.replicate 2 []) rosterOneSeedThreeA).1
          (seedCommittee (List.replicate 2 []) rosterOneSeedThreeA).2 = .ok s2 ∧
        s2.2 = [] ∧ distributeParticipants rosterOneSeedThreeA 2 = .ok s2.1 ∧
        s2.1.length = 2 ∧ ∀ t ∈ s2.1, t.length ≤ membersPerTeam :=
  ⟨by decide, by decide, by decide,
    distribute_no_overflow rosterOneSeedThreeA 2 (by decide) (by decide) (by decide)⟩

/-- Instance of C15: the roster of twenty-four, for which four teams are selected. -/
theorem distribute_selected_overfull_witness :
    (∀ x ∈ rosterTwentyFour, x.Grade = "a" ∨ x.Grade = "b" ∨ x.Grade = "c") ∧
      ∃ teams,
        distributeParticipants rosterTwentyFour (selectTeamCount rosterTwentyFour.length) =
          .ok teams ∧
        ((∃ t ∈ teams, membersPerTeam < t.length) ↔
          (24 ≤ rosterTwentyFour.length ∧ rosterTwentyFour.length ≤ 29) ∨
            31 ≤ rosterTwentyFour.length) ∧
        (rosterTwentyFour.length ≤ selectTeamCount rosterTwentyFour.length * membersPerTeam ↔
          rosterTwentyFour.length ≤ 23 ∨ rosterTwentyFour.length = 30) :=
  ⟨by decide, distribute_selected_overfull rosterTwentyFour (by decide)⟩

end VolleyballSorter

